import Mathlib

/-!
Verification development for the BotInvest repository.

We shallowly embed the two core subsystems:
  * the paper-trading ledger (`src/trading_system.py`: `TradingAccount`,
    `PaperTrader.buy`, `PaperTrader.sell`), and
  * the resilient multi-provider data fetch
    (`src/data_loader.py`: `DataLoader.normalize_ticker`,
    `DataLoader.get_stock_history`) together with
    `to_futu_code` from `src/market_data_providers.py`.

Modelling conventions:
  * Python `float` amounts are modelled as exact rationals `ℚ`; every
    arithmetic fact proved below is exactly representable in binary
    floating point at the concrete inputs used.
  * Python `int` quantities are modelled as `ℤ`.
  * Python strings are modelled as `List Char` restricted to the ASCII
    behaviour of `str.upper` / `str.lower` / `str.strip` (all ticker and
    source-name data in the repository is ASCII).
  * A Python `dict` is modelled as an association list in insertion order.
  * Network providers are modelled by an environment recording the outcome
    of each provider call; the observable behaviour of
    `get_stock_history` (which providers are attempted in which order,
    which sleeps happen, and the tag of the returned frame) is produced as
    an explicit event trace.
-/

namespace BotInvest

/-! ## Ledger: `src/trading_system.py` -/

/-- One entry of `TradingAccount.positions`: `{"qty": ..., "avg_cost": ...}`. -/
structure Position where
  qty : Int
  avg_cost : ℚ
deriving DecidableEq, Repr

/-- One entry of `TradingAccount.history` as appended by `_log_trade`.
The wall-clock `date` string (`datetime.now()`) is abstracted away; no claim
depends on it. -/
structure Trade where
  action : String
  ticker : String
  qty : Int
  price : ℚ
  amount : ℚ
deriving DecidableEq, Repr

/-- `TradingAccount.__init__`: cash, positions dict, history list. -/
structure TradingAccount where
  cash : ℚ
  positions : List (String × Position)
  history : List Trade
deriving DecidableEq, Repr

/-- A `PaperTrader` together with the number of `_save_account` calls
performed, so that persistence writes are observable. -/
structure TraderState where
  account : TradingAccount
  saves : Nat
deriving DecidableEq, Repr

/-- Result of a `buy`/`sell` call: the `(bool, message)` pair the Python
methods return, or the `ZeroDivisionError` that `buy` can raise. -/
inductive TradeResult where
  | ok (msg : String)
  | err (msg : String)
  | zeroDiv
deriving DecidableEq, Repr

/-- `positions[ticker]` lookup (`ticker in positions` / subscript). -/
def lookupPos : List (String × Position) → String → Option Position
  | [], _ => none
  | e :: rest, t => if e.1 == t then some e.2 else lookupPos rest t

/-- In-place mutation of the dict entry for `t` (the key exists). -/
def setPos (ps : List (String × Position)) (t : String) (p : Position) :
    List (String × Position) :=
  ps.map (fun e => if e.1 == t then (t, p) else e)

/-- `del positions[ticker]`. -/
def delPos (ps : List (String × Position)) (t : String) :
    List (String × Position) :=
  ps.filter (fun e => !(e.1 == t))

/-- `PaperTrader.buy`.  Mirrors the Python statement order: the guard
`cost > cash`, the cash debit, the fresh `{"qty": 0, "avg_cost": 0.0}`
entry for an absent ticker, the in-place `pos['qty'] += qty`, and then the
average-cost division — which in Python raises `ZeroDivisionError` when
`pos['qty']` is `0` at that point (cash already debited, the zero-quantity
entry already inserted, no history append, no save). -/
def buy (s : TraderState) (ticker : String) (qty : Int) (price : ℚ) :
    TradeResult × TraderState :=
  let cost : ℚ := qty * price
  if cost > s.account.cash then
    (.err "资金不足", s)
  else
    let cash' := s.account.cash - cost
    let ps :=
      if (lookupPos s.account.positions ticker).isSome then
        s.account.positions
      else
        s.account.positions ++ [(ticker, ⟨0, 0⟩)]
    let pos := (lookupPos ps ticker).getD ⟨0, 0⟩
    let total_cost : ℚ := pos.qty * pos.avg_cost + cost
    let qty' := pos.qty + qty
    if qty' = 0 then
      (.zeroDiv,
        { account :=
            { cash := cash'
              positions := setPos ps ticker ⟨qty', pos.avg_cost⟩
              history := s.account.history }
          saves := s.saves })
    else
      let avg' := total_cost / (qty' : ℚ)
      (.ok "买入成功",
        { account :=
            { cash := cash'
              positions := setPos ps ticker ⟨qty', avg'⟩
              history := s.account.history ++
                [⟨"BUY", ticker, qty, price, qty * price⟩] }
          saves := s.saves + 1 })

/-- `PaperTrader.sell`. -/
def sell (s : TraderState) (ticker : String) (qty : Int) (price : ℚ) :
    TradeResult × TraderState :=
  match lookupPos s.account.positions ticker with
  | none => (.err "持仓不足", s)
  | some pos =>
    if pos.qty < qty then
      (.err "持仓不足", s)
    else
      let income : ℚ := qty * price
      let cash' := s.account.cash + income
      let qty' := pos.qty - qty
      let ps1 := setPos s.account.positions ticker ⟨qty', pos.avg_cost⟩
      let ps' := if qty' = 0 then delPos ps1 ticker else ps1
      (.ok "卖出成功",
        { account :=
            { cash := cash'
              positions := ps'
              history := s.account.history ++
                [⟨"SELL", ticker, qty, price, qty * price⟩] }
          saves := s.saves + 1 })

/-! ## Python string primitives (ASCII model, `List Char`) -/

/-- The whitespace characters stripped by Python `str.strip()` (ASCII). -/
def pyIsSpace (c : Char) : Bool :=
  c.toNat == 32 || (9 ≤ c.toNat && c.toNat ≤ 13)

def pyLStripWs (l : List Char) : List Char := l.dropWhile pyIsSpace

def pyRStripWs (l : List Char) : List Char :=
  (l.reverse.dropWhile pyIsSpace).reverse

/-- Python `str.strip()` with no argument. -/
def pyStrip (l : List Char) : List Char := pyRStripWs (pyLStripWs l)

def isAsciiLowerCh (c : Char) : Bool := 97 ≤ c.toNat && c.toNat ≤ 122

def isAsciiUpperCh (c : Char) : Bool := 65 ≤ c.toNat && c.toNat ≤ 90

def upperChar (c : Char) : Char :=
  if isAsciiLowerCh c then Char.ofNat (c.toNat - 32) else c

def lowerChar (c : Char) : Char :=
  if isAsciiUpperCh c then Char.ofNat (c.toNat + 32) else c

/-- Python `str.upper()` (ASCII fragment). -/
def pyUpper (l : List Char) : List Char := l.map upperChar

/-- Python `str.lower()` (ASCII fragment). -/
def pyLower (l : List Char) : List Char := l.map lowerChar

/-- Fuel-indexed scan for Python `str.replace(pat, rep)` (all occurrences,
left to right, scanning past each replacement).  Only ever called with a
non-empty `pat`; the fuel is the length of the scanned string, which
suffices because every step consumes at least one character. -/
def pyReplaceFuel (pat rep : List Char) : Nat → List Char → List Char
  | _, [] => []
  | 0, s => s
  | fuel + 1, c :: rest =>
    if pat.isPrefixOf (c :: rest) then
      rep ++ pyReplaceFuel pat rep fuel (rest.drop (pat.length - 1))
    else
      c :: pyReplaceFuel pat rep fuel rest

/-- Python `s.replace(pat, rep)`. -/
def pyReplace (pat rep s : List Char) : List Char :=
  pyReplaceFuel pat rep s.length s

/-- Python `str.lstrip("0")`. -/
def pyLStripZeros (l : List Char) : List Char := l.dropWhile (fun c => c == '0')

/-- Python `str.zfill(w)` (pads with `'0'` on the left, keeping a leading
sign character in place). -/
def pyZfill (w : Nat) (s : List Char) : List Char :=
  if w ≤ s.length then s
  else
    match s with
    | [] => List.replicate w '0'
    | c :: rest =>
      if c = '+' ∨ c = '-' then
        c :: (List.replicate (w - s.length) '0' ++ rest)
      else
        List.replicate (w - s.length) '0' ++ (c :: rest)

/-- Python `s.split(".")[0]`: the segment before the first dot. -/
def pySplitDotHead (s : List Char) : List Char :=
  s.takeWhile (fun c => !(c == '.'))

/-! ## Ticker normalization: `DataLoader.normalize_ticker`
(`src/data_loader.py`) and `to_futu_code` (`src/market_data_providers.py`) -/

/-- `DataLoader.normalize_ticker`. -/
def normalize_ticker (ticker : List Char) : List Char :=
  let t := pyUpper (pyStrip ticker)
  if t = [] then t
  else if ("US.".toList).isPrefixOf t then
    pyReplace "US.".toList [] t
  else if ("HK.".toList).isPrefixOf t then
    let code0 := pyLStripZeros (pyReplace "HK.".toList [] t)
    let code := if code0 = [] then ['0'] else code0
    code ++ ".HK".toList
  else if ("SH.".toList).isPrefixOf t then
    pyReplace "SH.".toList [] t ++ ".SS".toList
  else if ("SZ.".toList).isPrefixOf t then
    pyReplace "SZ.".toList [] t ++ ".SZ".toList
  else t

/-- `to_futu_code`. -/
def to_futu_code (yahoo_ticker : List Char) : List Char :=
  let t := pyUpper (pyStrip yahoo_ticker)
  if t = [] then t
  else if ("US.".toList).isPrefixOf t || ("HK.".toList).isPrefixOf t ||
      ("SH.".toList).isPrefixOf t || ("SZ.".toList).isPrefixOf t then
    t
  else if (".HK".toList).isSuffixOf t then
    "HK.".toList ++ pyZfill 5 (pyReplace ".HK".toList [] t)
  else if (".SS".toList).isSuffixOf t || (".SH".toList).isSuffixOf t then
    "SH.".toList ++ pySplitDotHead t
  else if (".SZ".toList).isSuffixOf t then
    "SZ.".toList ++ pySplitDotHead t
  else
    "US.".toList ++ t

def isDigitCh (c : Char) : Bool := 48 ≤ c.toNat && c.toNat ≤ 57

def isUpperAlnumCh (c : Char) : Bool := isAsciiUpperCh c || isDigitCh c

/-- The supported broker-prefixed forms of claim C7: `US.<symbol>` with a
non-empty alphanumeric (uppercase) symbol, `HK.<5-digit zero-padded
code>`, `SH.<code>` and `SZ.<code>` with non-empty numeric codes. -/
def SupportedFutuCode (c : List Char) : Prop :=
  (∃ s, c = "US.".toList ++ s ∧ s ≠ [] ∧ ∀ ch ∈ s, isUpperAlnumCh ch) ∨
  (∃ d, c = "HK.".toList ++ d ∧ d.length = 5 ∧ ∀ ch ∈ d, isDigitCh ch) ∨
  (∃ d, c = "SH.".toList ++ d ∧ d ≠ [] ∧ ∀ ch ∈ d, isDigitCh ch) ∨
  (∃ d, c = "SZ.".toList ++ d ∧ d ≠ [] ∧ ∀ ch ∈ d, isDigitCh ch)

/-! ## Resilient fetch: `DataLoader.get_stock_history`
(`src/data_loader.py`, lines 46-141)

The ticker, period, interval and Futu host/port arguments only parametrize
the individual provider calls; provider behaviour is abstracted by a
`FetchEnv` giving the outcome of each provider call made during one
`get_stock_history` invocation, so those arguments are not carried in the
model. -/

/-- Outcome of one provider call: a non-empty DataFrame, a `None`/empty
DataFrame, or a raised exception whose message is (or is not) classified
as rate-limited (`"Too Many Requests" in msg or "Rate limited" in msg`). -/
inductive Outcome where
  | success
  | empty
  | error (rateLimited : Bool)
deriving DecidableEq, Repr

/-- Environment of one `get_stock_history` call.  `yahoo` is indexed by
the number of Yahoo calls already made during this invocation (an explicit
`data_source="yahoo"` attempt uses index 0; the auto-chain retry loop then
uses the following indices). -/
structure FetchEnv where
  futu : Outcome
  yahoo : Nat → Outcome
  stooq : Outcome
  alphavantage : Outcome
  localSampleExists : Bool

/-- Observable events of a `get_stock_history` call: provider attempts
(construction + `get_history`, in order) and `time.sleep` calls with their
duration in seconds. -/
inductive FetchEvent where
  | attempt (providerName : String)
  | sleep (seconds : ℚ)
deriving DecidableEq, Repr

/-- Trace of one `get_stock_history` call: events in order, plus the
`data_source` tag of the returned DataFrame (`none` for a `None` return). -/
structure FetchTrace where
  events : List FetchEvent
  result : Option String
deriving DecidableEq, Repr

/-- The Yahoo retry loop of the auto chain (`for attempt in range(3)`):
success returns the frame; an empty frame breaks; a rate-limited error
sleeps `1.5 * (attempt + 1)` seconds and retries; any other error is
re-raised (and caught by the enclosing `try`, moving on to Stooq).  The
fuel starts at 3; `k` counts attempts already made; `off` is the number of
earlier Yahoo calls in this invocation. -/
def yahooLoop (env : FetchEnv) (off : Nat) : Nat → Nat → List FetchEvent × Option String
  | _, 0 => ([], none)
  | k, fuel + 1 =>
    match env.yahoo (off + k) with
    | .success => ([.attempt "yahoo"], some "yahoo")
    | .empty => ([.attempt "yahoo"], none)
    | .error true =>
      let rest := yahooLoop env off (k + 1) fuel
      (.attempt "yahoo" :: .sleep ((3 : ℚ) / 2 * (k + 1)) :: rest.1, rest.2)
    | .error false => ([.attempt "yahoo"], none)

/-- Steps 2-3 of `get_stock_history` (the auto chain from line 92 on):
Futu (when enabled), Yahoo with retry, Stooq, AlphaVantage, then the local
sample fallback. -/
def runAuto (env : FetchEnv) (allow_fallback futu_enabled : Bool)
    (yOff : Nat) : FetchTrace :=
  let futuEvs : List FetchEvent :=
    if futu_enabled then [.attempt "futu"] else []
  if futu_enabled && (env.futu == .success) then
    ⟨futuEvs, some "futu"⟩
  else
    let y := yahooLoop env yOff 0 3
    match y.2 with
    | some r => ⟨futuEvs ++ y.1, some r⟩
    | none =>
      if env.stooq == .success then
        ⟨futuEvs ++ y.1 ++ [.attempt "stooq"], some "stooq"⟩
      else if env.alphavantage == .success then
        ⟨futuEvs ++ y.1 ++ [.attempt "stooq", .attempt "alphavantage"],
          some "alphavantage"⟩
      else
        let base := futuEvs ++ y.1 ++ [.attempt "stooq", .attempt "alphavantage"]
        if allow_fallback && env.localSampleExists then
          ⟨base, some "local_sample"⟩
        else
          ⟨base, none⟩

/-- Outcome and tag of the single `try_provider` call made in the explicit
data-source branch (step 1, lines 76-90), if `ds` names a known provider. -/
def explicitProvider (env : FetchEnv) (ds : List Char) :
    Option (Outcome × String) :=
  if ds = "futu".toList then some (env.futu, "futu")
  else if ds = "yahoo".toList then some (env.yahoo 0, "yahoo")
  else if ds = "stooq".toList then some (env.stooq, "stooq")
  else if ds = "alphavantage".toList then some (env.alphavantage, "alphavantage")
  else none

/-- `DataLoader.get_stock_history`.  `ds0` is the `data_source` argument
(`(data_source or "auto").lower().strip()` is applied first; an empty
string is falsy in Python, hence the `auto` default).  Note that on a
failed or unknown explicit source the code falls through into the auto
chain: there is no early return after step 1. -/
def get_stock_history (ds0 : List Char) (allow_fallback futu_enabled : Bool)
    (env : FetchEnv) : FetchTrace :=
  let ds := pyStrip (pyLower (if ds0 = [] then "auto".toList else ds0))
  if ds = "auto".toList then
    runAuto env allow_fallback futu_enabled 0
  else
    match explicitProvider env ds with
    | some (.success, nm) => ⟨[.attempt nm], some nm⟩
    | some (_, nm) =>
      let t := runAuto env allow_fallback futu_enabled
        (if nm = "yahoo" then 1 else 0)
      ⟨.attempt nm :: t.events, t.result⟩
    | none => runAuto env allow_fallback futu_enabled 0

/-- Number of attempts of provider `nm` in a trace. -/
def attemptCount (nm : String) (evs : List FetchEvent) : Nat :=
  evs.countP (fun e => e == .attempt nm)

/-- The outcome the explicit branch of `get_stock_history` observes for a
named provider. -/
def providerOutcome (env : FetchEnv) (nm : String) : Outcome :=
  if nm = "futu" then env.futu
  else if nm = "yahoo" then env.yahoo 0
  else if nm = "stooq" then env.stooq
  else if nm = "alphavantage" then env.alphavantage
  else .empty

/-- Environment where every Yahoo call succeeds and every other provider
returns an empty frame. -/
def envYahooOnly : FetchEnv :=
  { futu := .empty, yahoo := fun _ => .success, stooq := .empty,
    alphavantage := .empty, localSampleExists := false }

/-- Environment whose first Yahoo call is rate-limited and whose second
succeeds; other providers return empty frames. -/
def envRateLimitedOnce : FetchEnv :=
  { futu := .empty, yahoo := fun k => if k = 0 then .error true else .success,
    stooq := .empty, alphavantage := .empty, localSampleExists := false }

/-- Environment whose Yahoo calls all fail with a non-rate-limit error;
other providers return empty frames. -/
def envYahooHardFailure : FetchEnv :=
  { futu := .empty, yahoo := fun _ => .error false, stooq := .empty,
    alphavantage := .empty, localSampleExists := false }

/-- Environment whose first Yahoo call is rate-limited and whose second
fails with a non-rate-limit error; other providers return empty frames. -/
def envRateLimitedThenHard : FetchEnv :=
  { futu := .empty,
    yahoo := fun k => if k = 0 then .error true else .error false,
    stooq := .empty, alphavantage := .empty, localSampleExists := false }

/-- The events of `n` consecutive rate-limited Yahoo attempts starting at
attempt index `k`: each is an attempt followed by its
`1.5 * (index + 1)`-second backoff sleep. -/
def rateLimitedBlocks (k : Nat) : Nat → List FetchEvent
  | 0 => []
  | n + 1 =>
    .attempt "yahoo" :: .sleep ((3 : ℚ) / 2 * (k + 1)) ::
      rateLimitedBlocks (k + 1) n

/-! ### Association-list lemmas -/

theorem lookupPos_setPos_of_isSome (ps : List (String × Position)) (t : String)
    (p : Position) (h : (lookupPos ps t).isSome) :
    lookupPos (setPos ps t p) t = some p := by
  induction ps with
  | nil => simp [lookupPos] at h
  | cons e rest ih =>
    cases he : (e.1 == t) with
    | true => simp [lookupPos, setPos, he]
    | false =>
      simp only [lookupPos, setPos, List.map_cons, he, Bool.false_eq_true,
        ite_false] at h ⊢
      exact ih h

theorem lookupPos_append_single (ps : List (String × Position)) (t : String)
    (p : Position) (h : lookupPos ps t = none) :
    lookupPos (ps ++ [(t, p)]) t = some p := by
  induction ps with
  | nil => simp [lookupPos]
  | cons e rest ih =>
    cases he : (e.1 == t) with
    | true => simp [lookupPos, he] at h
    | false =>
      simp only [lookupPos, he, Bool.false_eq_true, ite_false,
        List.cons_append] at h ⊢
      exact ih h

theorem lookupPos_delPos (ps : List (String × Position)) (t : String) :
    lookupPos (delPos ps t) t = none := by
  induction ps with
  | nil => simp [lookupPos, delPos]
  | cons e rest ih =>
    cases he : (e.1 == t) with
    | true => simpa [delPos, List.filter_cons, he] using ih
    | false => simpa [delPos, List.filter_cons, he, lookupPos] using ih

/-! ### Execution lemmas for `buy` -/

/-- Running `buy` on a ticker with no existing position, with a non-zero
quantity and sufficient cash: a fresh `(0, 0)` entry is inserted and then
overwritten with quantity `qty` and average cost exactly `price`. -/
theorem buy_fresh_spec (s : TraderState) (t : String) (q : Int) (p : ℚ)
    (hl : lookupPos s.account.positions t = none) (hq0 : q ≠ 0)
    (hc : (q : ℚ) * p ≤ s.account.cash) :
    buy s t q p = (.ok "买入成功",
      { account :=
          { cash := s.account.cash - q * p
            positions := setPos (s.account.positions ++ [(t, ⟨0, 0⟩)]) t ⟨q, p⟩
            history := s.account.history ++ [⟨"BUY", t, q, p, q * p⟩] }
        saves := s.saves + 1 }) := by
  have hc' : ¬((q : ℚ) * p > s.account.cash) := not_lt.mpr hc
  have hkey : lookupPos (s.account.positions ++ [(t, (⟨0, 0⟩ : Position))]) t =
      some ⟨0, 0⟩ := lookupPos_append_single _ _ _ hl
  simp only [buy, hc', ite_false, hl, Option.isSome_none, Bool.false_eq_true,
    hkey, Option.getD_some, zero_add]
  rw [if_neg hq0]
  have hdiv : (q : ℚ) * p / (q : ℚ) = p :=
    mul_div_cancel_left₀ p (by exact_mod_cast hq0)
  simp [hdiv]

/-- Running `buy` on a held position, with the new total quantity non-zero
and sufficient cash. -/
theorem buy_existing_spec (s : TraderState) (t : String) (q : Int) (p : ℚ)
    (pos : Position) (hl : lookupPos s.account.positions t = some pos)
    (hq : pos.qty + q ≠ 0) (hc : (q : ℚ) * p ≤ s.account.cash) :
    buy s t q p = (.ok "买入成功",
      { account :=
          { cash := s.account.cash - q * p
            positions := setPos s.account.positions t
              ⟨pos.qty + q,
               ((pos.qty : ℚ) * pos.avg_cost + (q : ℚ) * p) / ((pos.qty + q : Int) : ℚ)⟩
            history := s.account.history ++ [⟨"BUY", t, q, p, q * p⟩] }
        saves := s.saves + 1 }) := by
  have hc' : ¬((q : ℚ) * p > s.account.cash) := not_lt.mpr hc
  simp only [buy, hc', ite_false, hl, Option.isSome_some, ite_true,
    Option.getD_some]
  rw [if_neg hq]

/-! ## Claim theorems: ledger -/

/-- Concrete starting state used by witnesses: 1000 in cash, a held
position of 5 shares of AAPL at average cost 10, empty history. -/
def sampleState : TraderState :=
  { account := { cash := 1000, positions := [("AAPL", ⟨5, 10⟩)], history := [] }
    saves := 0 }

/-- C2: `sell` fails with the InsufficientPosition message whenever no
position exists for the ticker or the held quantity is strictly below the
requested quantity, and `buy` fails with the InsufficientFunds message
whenever `quantity*price` strictly exceeds cash; in both failure cases the
whole trader state (cash, positions, history, save count) is returned
unchanged. -/
theorem sell_buy_insufficient_leave_state_unchanged (s : TraderState)
    (t : String) (q : Int) (p : ℚ) :
    ((∀ pos, lookupPos s.account.positions t = some pos → pos.qty < q) →
      sell s t q p = (.err "持仓不足", s)) ∧
    ((q : ℚ) * p > s.account.cash →
      buy s t q p = (.err "资金不足", s)) := by
  constructor
  · intro h
    cases hl : lookupPos s.account.positions t with
    | none => simp [sell, hl]
    | some pos => simp [sell, hl, h pos hl]
  · intro h
    simp [buy, h]

theorem sell_buy_insufficient_witness :
    sell sampleState "AAPL" 6 20 = (.err "持仓不足", sampleState) ∧
    buy sampleState "AAPL" 10 500 = (.err "资金不足", sampleState) :=
  ⟨(sell_buy_insufficient_leave_state_unchanged sampleState "AAPL" 6 20).1
      (fun pos h => by
        have : pos = ⟨5, 10⟩ := by
          simpa [sampleState, lookupPos] using h.symm
        rw [this]; decide),
   (sell_buy_insufficient_leave_state_unchanged sampleState "AAPL" 10 500).2
      (by norm_num [sampleState])⟩

/-- The spec's concrete two-buy scenario, evaluated: from no position,
`buy(10, 100)` then `buy(10, 120)` leaves quantity 20 at average cost
exactly 110. -/
theorem two_buys_concrete :
    lookupPos
      (buy (buy ⟨⟨100000, [], []⟩, 0⟩ "AAPL" 10 100).2 "AAPL" 10
        120).2.account.positions "AAPL" = some ⟨20, 110⟩ := by
  have hs1 : (buy (⟨⟨100000, [], []⟩, 0⟩ : TraderState) "AAPL" 10 100).2 =
      ⟨⟨99000, [("AAPL", ⟨10, 100⟩)], [⟨"BUY", "AAPL", 10, 100, 1000⟩]⟩, 1⟩ := by
    rw [buy_fresh_spec ⟨⟨100000, [], []⟩, 0⟩ "AAPL" 10 100 rfl (by decide)
      (by norm_num)]
    norm_num [TraderState.mk.injEq, TradingAccount.mk.injEq, Trade.mk.injEq,
      setPos]
  rw [hs1]
  rw [buy_existing_spec
    ⟨⟨99000, [("AAPL", ⟨10, 100⟩)], [⟨"BUY", "AAPL", 10, 100, 1000⟩]⟩, 1⟩
    "AAPL" 10 120 ⟨10, 100⟩ rfl (by decide) (by norm_num)]
  rw [lookupPos_setPos_of_isSome _ _ _ (by rfl)]
  simp only [Option.some.injEq, Position.mk.injEq]
  constructor
  · decide
  · push_cast
    norm_num

/-- C3: a successful `buy` debits cash by `quantity*price` and updates the
position to `new_qty = old_qty + quantity`,
`new_avg = (old_qty*old_avg + quantity*price) / (old_qty + quantity)`,
treating an absent position as `(0, 0)`; in particular two buys of
`(10, 100)` then `(10, 120)` from no position give exactly quantity `20`
and average cost `110`. -/
theorem buy_success_updates_weighted_average (s : TraderState) (t : String)
    (q : Int) (p : ℚ)
    (hc : (q : ℚ) * p ≤ s.account.cash)
    (hq : ((lookupPos s.account.positions t).getD ⟨0, 0⟩).qty + q ≠ 0) :
    ((buy s t q p).1 = .ok "买入成功" ∧
     (buy s t q p).2.account.cash = s.account.cash - q * p ∧
     lookupPos (buy s t q p).2.account.positions t =
       some ⟨((lookupPos s.account.positions t).getD ⟨0, 0⟩).qty + q,
         ((((lookupPos s.account.positions t).getD ⟨0, 0⟩).qty : ℚ) *
             ((lookupPos s.account.positions t).getD ⟨0, 0⟩).avg_cost +
           (q : ℚ) * p) /
          ((((lookupPos s.account.positions t).getD ⟨0, 0⟩).qty : ℚ) + (q : ℚ))⟩) ∧
    lookupPos
      (buy (buy ⟨⟨100000, [], []⟩, 0⟩ "AAPL" 10 100).2 "AAPL" 10
        120).2.account.positions "AAPL" = some ⟨20, 110⟩ := by
  refine ⟨?_, two_buys_concrete⟩
  · cases hl : lookupPos s.account.positions t with
    | none =>
      have hq0 : q ≠ 0 := by simpa [hl] using hq
      rw [buy_fresh_spec s t q p hl hq0 hc]
      refine ⟨rfl, rfl, ?_⟩
      have hkey : (lookupPos (s.account.positions ++ [(t, ⟨0, 0⟩)]) t).isSome := by
        rw [lookupPos_append_single _ _ _ hl]; rfl
      rw [lookupPos_setPos_of_isSome _ _ _ hkey]
      have hval : (((0 : Int) : ℚ) * (0 : ℚ) + (q : ℚ) * p) /
          (((0 : Int) : ℚ) + (q : ℚ)) = p := by
        push_cast
        rw [zero_mul, zero_add, zero_add,
          mul_div_cancel_left₀ _ (by exact_mod_cast hq0 : (q : ℚ) ≠ 0)]
      have hdiv : (q : ℚ) * p / (q : ℚ) = p :=
        mul_div_cancel_left₀ p (by exact_mod_cast hq0)
      simp [hl, hval, hdiv]
    | some pos =>
      have hqpos : pos.qty + q ≠ 0 := by simpa [hl] using hq
      rw [buy_existing_spec s t q p pos hl hqpos hc]
      refine ⟨rfl, rfl, ?_⟩
      have hkey : (lookupPos s.account.positions t).isSome := by rw [hl]; rfl
      rw [lookupPos_setPos_of_isSome _ _ _ hkey]
      have hden : ((pos.qty + q : Int) : ℚ) = (pos.qty : ℚ) + (q : ℚ) := by
        push_cast; ring
      simp [hl, hden]

theorem buy_weighted_average_witness :
    ((buy sampleState "AAPL" 5 20).1 = .ok "买入成功" ∧
     (buy sampleState "AAPL" 5 20).2.account.cash =
       sampleState.account.cash - ((5 : Int) : ℚ) * 20 ∧
     lookupPos (buy sampleState "AAPL" 5 20).2.account.positions "AAPL" =
       some ⟨((lookupPos sampleState.account.positions "AAPL").getD ⟨0, 0⟩).qty + 5,
         ((((lookupPos sampleState.account.positions "AAPL").getD ⟨0, 0⟩).qty : ℚ) *
             ((lookupPos sampleState.account.positions "AAPL").getD ⟨0, 0⟩).avg_cost +
           ((5 : Int) : ℚ) * 20) /
          ((((lookupPos sampleState.account.positions "AAPL").getD ⟨0, 0⟩).qty : ℚ) +
            ((5 : Int) : ℚ))⟩) ∧
    lookupPos
      (buy (buy ⟨⟨100000, [], []⟩, 0⟩ "AAPL" 10 100).2 "AAPL" 10
        120).2.account.positions "AAPL" = some ⟨20, 110⟩ :=
  buy_success_updates_weighted_average sampleState "AAPL" 5 20
    (by norm_num [sampleState]) (by decide)

/-- C4: a successful `sell` credits cash by exactly `quantity*price`,
decrements the position quantity leaving `avg_cost` untouched, and removes
the position from the map if and only if the resulting quantity is zero. -/
theorem sell_success_credits_cash_keeps_avg (s : TraderState) (t : String)
    (q : Int) (p : ℚ) (pos : Position)
    (hl : lookupPos s.account.positions t = some pos) (hq : ¬(pos.qty < q)) :
    (sell s t q p).1 = .ok "卖出成功" ∧
    (sell s t q p).2.account.cash = s.account.cash + q * p ∧
    lookupPos (sell s t q p).2.account.positions t =
      (if pos.qty - q = 0 then none else some ⟨pos.qty - q, pos.avg_cost⟩) := by
  have hsome : (lookupPos s.account.positions t).isSome := by rw [hl]; rfl
  simp only [sell, hl]
  rw [if_neg hq]
  refine ⟨rfl, rfl, ?_⟩
  by_cases h0 : pos.qty - q = 0
  · simp only [h0, ite_true]
    exact lookupPos_delPos _ t
  · simp only [h0, ite_false]
    exact lookupPos_setPos_of_isSome _ _ _ hsome

theorem sell_success_witness :
    (sell sampleState "AAPL" 5 12).1 = .ok "卖出成功" ∧
    (sell sampleState "AAPL" 5 12).2.account.cash =
      sampleState.account.cash + ((5 : Int) : ℚ) * 12 ∧
    lookupPos (sell sampleState "AAPL" 5 12).2.account.positions "AAPL" =
      (if (5 : Int) - 5 = 0 then none else some ⟨(5 : Int) - 5, 10⟩) :=
  sell_success_credits_cash_keeps_avg sampleState "AAPL" 5 12 ⟨5, 10⟩
    rfl (by decide)

/-- C5: buying a ticker that is not currently held and immediately selling
the same quantity at the same price returns cash to exactly its pre-trade
value and leaves no entry for the ticker in the positions map. -/
theorem buy_then_sell_roundtrip (s : TraderState) (t : String) (q : Int)
    (p : ℚ) (hl : lookupPos s.account.positions t = none) (hq0 : q ≠ 0)
    (hc : (q : ℚ) * p ≤ s.account.cash) :
    (sell (buy s t q p).2 t q p).1 = .ok "卖出成功" ∧
    (sell (buy s t q p).2 t q p).2.account.cash = s.account.cash ∧
    lookupPos (sell (buy s t q p).2 t q p).2.account.positions t = none := by
  rw [buy_fresh_spec s t q p hl hq0 hc]
  have hkey : lookupPos
      (setPos (s.account.positions ++ [(t, ⟨0, 0⟩)]) t ⟨q, p⟩) t =
      some ⟨q, p⟩ := by
    apply lookupPos_setPos_of_isSome
    rw [lookupPos_append_single _ _ _ hl]; rfl
  simp only [sell, hkey]
  rw [if_neg (lt_irrefl q)]
  rw [if_pos (sub_self q)]
  refine ⟨rfl, ?_, ?_⟩
  · show s.account.cash - (q : ℚ) * p + (q : ℚ) * p = s.account.cash
    ring
  · exact lookupPos_delPos _ t

theorem buy_then_sell_roundtrip_witness :
    (sell (buy sampleState "MSFT" 3 7).2 "MSFT" 3 7).1 = .ok "卖出成功" ∧
    (sell (buy sampleState "MSFT" 3 7).2 "MSFT" 3 7).2.account.cash =
      sampleState.account.cash ∧
    lookupPos
      (sell (buy sampleState "MSFT" 3 7).2 "MSFT" 3 7).2.account.positions
      "MSFT" = none :=
  buy_then_sell_roundtrip sampleState "MSFT" 3 7 (by decide) (by decide)
    (by norm_num [sampleState])

/-- C10: `buy(ticker, 0, price)` on a ticker with no existing position
(and non-negative cash, so the funds guard passes) hits the unguarded
division by zero: the call raises, a zero-quantity entry has already been
inserted into the in-memory positions map, and no persistence write or
history append has happened. -/
theorem buy_zero_quantity_fresh_raises_zero_div (s : TraderState)
    (t : String) (p : ℚ) (hl : lookupPos s.account.positions t = none)
    (hcash : 0 ≤ s.account.cash) :
    (buy s t 0 p).1 = .zeroDiv ∧
    lookupPos (buy s t 0 p).2.account.positions t = some ⟨0, 0⟩ ∧
    (buy s t 0 p).2.saves = s.saves ∧
    (buy s t 0 p).2.account.history = s.account.history := by
  have hc' : ¬(((0 : Int) : ℚ) * p > s.account.cash) := by
    push_cast
    simpa using not_lt.mpr hcash
  have hkey : lookupPos (s.account.positions ++ [(t, (⟨0, 0⟩ : Position))]) t =
      some ⟨0, 0⟩ := lookupPos_append_single _ _ _ hl
  simp only [buy, hc', ite_false, hl, Option.isSome_none, Bool.false_eq_true,
    hkey, Option.getD_some, add_zero]
  refine ⟨by simp, ?_, by simp, by simp⟩
  have hset := lookupPos_setPos_of_isSome
    (s.account.positions ++ [(t, (⟨0, 0⟩ : Position))]) t
    ⟨0 + 0, 0⟩ (by rw [hkey]; rfl)
  simpa using hset

/-! ### Fetch-pipeline lemmas -/

theorem attemptCount_cons_ne (nm nm2 : String) (h : nm2 ≠ nm)
    (evs : List FetchEvent) :
    attemptCount nm (.attempt nm2 :: evs) = attemptCount nm evs := by
  simp [attemptCount, List.countP_cons, beq_iff_eq, h]

theorem attemptCount_cons_self (nm : String) (evs : List FetchEvent) :
    attemptCount nm (.attempt nm :: evs) = attemptCount nm evs + 1 := by
  simp [attemptCount, List.countP_cons]

theorem attemptCount_sleep (nm : String) (q : ℚ) (evs : List FetchEvent) :
    attemptCount nm (.sleep q :: evs) = attemptCount nm evs := by
  simp [attemptCount, List.countP_cons, beq_iff_eq]

theorem attemptCount_append (nm : String) (evs1 evs2 : List FetchEvent) :
    attemptCount nm (evs1 ++ evs2) =
      attemptCount nm evs1 + attemptCount nm evs2 := by
  simp [attemptCount, List.countP_append]

theorem yahooLoop_yahoo_count (env : FetchEnv) (off : Nat) :
    ∀ fuel k, attemptCount "yahoo" (yahooLoop env off k fuel).1 ≤ fuel := by
  intro fuel
  induction fuel with
  | zero => intro k; simp [yahooLoop, attemptCount]
  | succ n ih =>
    intro k
    cases ho : env.yahoo (off + k) with
    | success => simp [yahooLoop, ho, attemptCount, List.countP_cons]
    | empty => simp [yahooLoop, ho, attemptCount, List.countP_cons]
    | error rl =>
      cases rl with
      | true =>
        have h1 := ih (k + 1)
        simp only [yahooLoop, ho]
        rw [attemptCount_cons_self, attemptCount_sleep]
        omega
      | false => simp [yahooLoop, ho, attemptCount, List.countP_cons]

theorem yahooLoop_futu_count (env : FetchEnv) (off : Nat) :
    ∀ fuel k, attemptCount "futu" (yahooLoop env off k fuel).1 = 0 := by
  intro fuel
  induction fuel with
  | zero => intro k; simp [yahooLoop, attemptCount]
  | succ n ih =>
    intro k
    cases ho : env.yahoo (off + k) with
    | success => simp [yahooLoop, ho, attemptCount, List.countP_cons]
    | empty => simp [yahooLoop, ho, attemptCount, List.countP_cons]
    | error rl =>
      cases rl with
      | true =>
        have h1 := ih (k + 1)
        simp only [yahooLoop, ho]
        rw [attemptCount_cons_ne "futu" "yahoo" (by decide), attemptCount_sleep]
        exact h1
      | false => simp [yahooLoop, ho, attemptCount, List.countP_cons]

theorem yahooLoop_sleep_mem (env : FetchEnv) (off : Nat) :
    ∀ fuel k q, FetchEvent.sleep q ∈ (yahooLoop env off k fuel).1 →
      ∃ j, j < k + fuel ∧ k ≤ j ∧ env.yahoo (off + j) = .error true ∧
        q = (3 : ℚ) / 2 * (j + 1) := by
  intro fuel
  induction fuel with
  | zero => intro k q h; simp [yahooLoop] at h
  | succ n ih =>
    intro k q h
    cases ho : env.yahoo (off + k) with
    | success => simp [yahooLoop, ho] at h
    | empty => simp [yahooLoop, ho] at h
    | error rl =>
      cases rl with
      | false => simp [yahooLoop, ho] at h
      | true =>
        simp only [yahooLoop, ho, List.mem_cons] at h
        rcases h with h | h | h
        · exact absurd h (by simp)
        · refine ⟨k, by omega, le_refl k, ho, ?_⟩
          simpa using h
        · obtain ⟨j, hj1, hj2, hj3, hj4⟩ := ih (k + 1) q h
          exact ⟨j, by omega, by omega, hj3, hj4⟩

theorem rateLimitedBlocks_length (k n : Nat) :
    (rateLimitedBlocks k n).length = 2 * n := by
  induction n generalizing k with
  | zero => rfl
  | succ m ih =>
    simp only [rateLimitedBlocks, List.length_cons, ih]
    omega

theorem take_length_append {α : Type} (l₁ l₂ : List α) (m : Nat) :
    (l₁ ++ l₂).take (l₁.length + m) = l₁ ++ l₂.take m := by
  induction l₁ with
  | nil => simp
  | cons a t ih =>
    simp only [List.cons_append, List.length_cons]
    rw [show t.length + 1 + m = (t.length + m) + 1 from by omega]
    rw [List.take_succ_cons, ih]

/-- If the first `n` attempts of the Yahoo loop (from attempt index `k`)
are rate-limited and attempt `k + n` fails with a non-rate-limit error,
the loop emits exactly the `n` backoff blocks plus the final aborted
attempt, returns no data, and makes no further attempt and no further
sleep. -/
theorem yahooLoop_rl_then_hard (env : FetchEnv) (off : Nat) :
    ∀ n fuel k, n < fuel →
      (∀ j, j < n → env.yahoo (off + (k + j)) = .error true) →
      env.yahoo (off + (k + n)) = .error false →
      yahooLoop env off k fuel =
        (rateLimitedBlocks k n ++ [.attempt "yahoo"], none) := by
  intro n
  induction n with
  | zero =>
    intro fuel k hfuel hrl hhard
    cases fuel with
    | zero => omega
    | succ m =>
      have h0 : env.yahoo (off + k) = .error false := by
        rw [show off + k = off + (k + 0) from by omega]
        exact hhard
      simp [yahooLoop, h0, rateLimitedBlocks]
  | succ n ih =>
    intro fuel k hfuel hrl hhard
    cases fuel with
    | zero => omega
    | succ m =>
      have h0 : env.yahoo (off + k) = .error true := by
        rw [show off + k = off + (k + 0) from by omega]
        exact hrl 0 (by omega)
      have hrl' : ∀ j, j < n → env.yahoo (off + (k + 1 + j)) = .error true := by
        intro j hj
        rw [show off + (k + 1 + j) = off + (k + (j + 1)) from by omega]
        exact hrl (j + 1) (by omega)
      have hhard' : env.yahoo (off + (k + 1 + n)) = .error false := by
        rw [show off + (k + 1 + n) = off + (k + (n + 1)) from by omega]
        exact hhard
      have hrec := ih m (k + 1) (by omega) hrl' hhard'
      simp [yahooLoop, h0, hrec, rateLimitedBlocks]

theorem yahooLoop_head (env : FetchEnv) (off k n : Nat) :
    ∃ rest, (yahooLoop env off k (n + 1)).1 = .attempt "yahoo" :: rest := by
  cases ho : env.yahoo (off + k) with
  | success => exact ⟨[], by simp [yahooLoop, ho]⟩
  | empty => exact ⟨[], by simp [yahooLoop, ho]⟩
  | error rl =>
    cases rl with
    | true =>
      exact ⟨.sleep ((3 : ℚ) / 2 * (k + 1)) :: (yahooLoop env off (k + 1) n).1,
        by simp [yahooLoop, ho]⟩
    | false => exact ⟨[], by simp [yahooLoop, ho]⟩

/-- The event list of the auto chain, in closed form: the optional Futu
attempt, then (unless Futu succeeded) the Yahoo loop events, then (unless
Yahoo returned data) the Stooq attempt and, when Stooq fails too, the
AlphaVantage attempt.  The local-sample fallback emits no provider
attempt. -/
theorem runAuto_events (env : FetchEnv) (af fe : Bool) (off : Nat) :
    (runAuto env af fe off).events =
      if (fe && (env.futu == .success)) = true then
        (if fe then [FetchEvent.attempt "futu"] else [])
      else
        (if fe then [FetchEvent.attempt "futu"] else []) ++
          (yahooLoop env off 0 3).1 ++
          (if (yahooLoop env off 0 3).2 = none then
            (if env.stooq == .success then [FetchEvent.attempt "stooq"]
             else [FetchEvent.attempt "stooq",
                   FetchEvent.attempt "alphavantage"])
           else []) := by
  simp only [runAuto]
  split
  · rfl
  · split
    · rename_i x r heq
      simp [heq]
    · rename_i x heq
      split_ifs <;> simp [heq]

theorem runAuto_yahoo_count (env : FetchEnv) (af fe : Bool) (off : Nat) :
    attemptCount "yahoo" (runAuto env af fe off).events ≤ 3 := by
  have hloop := yahooLoop_yahoo_count env off 3 0
  have hfutu : attemptCount "yahoo"
      (if fe then [FetchEvent.attempt "futu"] else []) = 0 := by
    cases fe <;> rfl
  rw [runAuto_events]
  by_cases h : (fe && (env.futu == .success)) = true
  · rw [if_pos h, hfutu]
    omega
  · rw [if_neg h, attemptCount_append, attemptCount_append, hfutu]
    have htail : attemptCount "yahoo"
        (if (yahooLoop env off 0 3).2 = none then
          (if env.stooq == .success then [FetchEvent.attempt "stooq"]
           else [FetchEvent.attempt "stooq",
                 FetchEvent.attempt "alphavantage"])
         else []) = 0 := by
      split_ifs <;> rfl
    omega

theorem runAuto_sleep_mem (env : FetchEnv) (af fe : Bool) (off : Nat) (q : ℚ)
    (h : FetchEvent.sleep q ∈ (runAuto env af fe off).events) :
    ∃ j, j < 3 ∧ env.yahoo (off + j) = .error true ∧
      q = (3 : ℚ) / 2 * (j + 1) := by
  rw [runAuto_events] at h
  have hfutu : FetchEvent.sleep q ∉
      (if fe then [FetchEvent.attempt "futu"] else []) := by
    cases fe <;> simp
  have htail : FetchEvent.sleep q ∉
      (if (yahooLoop env off 0 3).2 = none then
        (if env.stooq == .success then [FetchEvent.attempt "stooq"]
         else [FetchEvent.attempt "stooq",
               FetchEvent.attempt "alphavantage"])
       else ([] : List FetchEvent)) := by
    split_ifs <;> simp
  by_cases hc : (fe && (env.futu == .success)) = true
  · rw [if_pos hc] at h
    exact absurd h hfutu
  · rw [if_neg hc] at h
    rcases List.mem_append.mp h with h1 | h1
    · rcases List.mem_append.mp h1 with h2 | h2
      · exact absurd h2 hfutu
      · obtain ⟨j, hj1, _, hj3, hj4⟩ := yahooLoop_sleep_mem env off 3 0 q h2
        exact ⟨j, by omega, hj3, hj4⟩
    · exact absurd h1 htail

/-- Reduction of the explicit `data_source="futu"` branch. -/
theorem gsh_explicit_futu (env : FetchEnv) (af fe : Bool) :
    get_stock_history "futu".toList af fe env =
      (match env.futu with
       | .success => ⟨[.attempt "futu"], some "futu"⟩
       | _ => ⟨.attempt "futu" :: (runAuto env af fe 0).events,
              (runAuto env af fe 0).result⟩) := by
  simp only [get_stock_history, explicitProvider]
  rw [(by decide : pyStrip (pyLower (if ("futu".toList : List Char) = []
    then "auto".toList else "futu".toList)) = "futu".toList)]
  rw [if_neg (by decide : ¬(("futu".toList : List Char) = "auto".toList))]
  rw [if_pos (rfl : ("futu".toList : List Char) = "futu".toList)]
  cases env.futu <;> rfl

/-- Reduction of the explicit `data_source="yahoo"` branch. -/
theorem gsh_explicit_yahoo (env : FetchEnv) (af fe : Bool) :
    get_stock_history "yahoo".toList af fe env =
      (match env.yahoo 0 with
       | .success => ⟨[.attempt "yahoo"], some "yahoo"⟩
       | _ => ⟨.attempt "yahoo" :: (runAuto env af fe 1).events,
              (runAuto env af fe 1).result⟩) := by
  simp only [get_stock_history, explicitProvider]
  rw [(by decide : pyStrip (pyLower (if ("yahoo".toList : List Char) = []
    then "auto".toList else "yahoo".toList)) = "yahoo".toList)]
  rw [if_neg (by decide : ¬(("yahoo".toList : List Char) = "auto".toList))]
  rw [if_neg (by decide : ¬(("yahoo".toList : List Char) = "futu".toList))]
  rw [if_pos (rfl : ("yahoo".toList : List Char) = "yahoo".toList)]
  cases env.yahoo 0 <;> rfl

/-- Reduction of the explicit `data_source="stooq"` branch. -/
theorem gsh_explicit_stooq (env : FetchEnv) (af fe : Bool) :
    get_stock_history "stooq".toList af fe env =
      (match env.stooq with
       | .success => ⟨[.attempt "stooq"], some "stooq"⟩
       | _ => ⟨.attempt "stooq" :: (runAuto env af fe 0).events,
              (runAuto env af fe 0).result⟩) := by
  simp only [get_stock_history, explicitProvider]
  rw [(by decide : pyStrip (pyLower (if ("stooq".toList : List Char) = []
    then "auto".toList else "stooq".toList)) = "stooq".toList)]
  rw [if_neg (by decide : ¬(("stooq".toList : List Char) = "auto".toList))]
  rw [if_neg (by decide : ¬(("stooq".toList : List Char) = "futu".toList))]
  rw [if_neg (by decide : ¬(("stooq".toList : List Char) = "yahoo".toList))]
  rw [if_pos (rfl : ("stooq".toList : List Char) = "stooq".toList)]
  cases env.stooq <;> rfl

/-- Reduction of the explicit `data_source="alphavantage"` branch. -/
theorem gsh_explicit_alphavantage (env : FetchEnv) (af fe : Bool) :
    get_stock_history "alphavantage".toList af fe env =
      (match env.alphavantage with
       | .success => ⟨[.attempt "alphavantage"], some "alphavantage"⟩
       | _ => ⟨.attempt "alphavantage" :: (runAuto env af fe 0).events,
              (runAuto env af fe 0).result⟩) := by
  simp only [get_stock_history, explicitProvider]
  rw [(by decide : pyStrip (pyLower (if ("alphavantage".toList : List Char) = []
    then "auto".toList else "alphavantage".toList)) = "alphavantage".toList)]
  rw [if_neg (by decide : ¬(("alphavantage".toList : List Char) = "auto".toList))]
  rw [if_neg (by decide : ¬(("alphavantage".toList : List Char) = "futu".toList))]
  rw [if_neg (by decide : ¬(("alphavantage".toList : List Char) = "yahoo".toList))]
  rw [if_neg (by decide : ¬(("alphavantage".toList : List Char) = "stooq".toList))]
  rw [if_pos (rfl : ("alphavantage".toList : List Char) = "alphavantage".toList)]
  cases env.alphavantage <;> rfl

/-! ## Claim theorems: fetch pipeline -/

/-- C1 counterexample: with `data_source="stooq"`, `allow_fallback` unset
and the Stooq provider failing, the call does not return NoData — it falls
through to the auto chain and returns Yahoo data, attempting other
providers on the way. -/
theorem explicit_source_failure_counterexample :
    (get_stock_history "stooq".toList false true envYahooOnly).result =
      some "yahoo" ∧
    (get_stock_history "stooq".toList false true envYahooOnly).result ≠
      none ∧
    FetchEvent.attempt "yahoo" ∈
      (get_stock_history "stooq".toList false true envYahooOnly).events := by
  refine ⟨rfl, by decide, ?_⟩
  exact List.mem_cons_of_mem _ (List.mem_cons_of_mem _ (List.mem_cons_self _ _))

/-- C1 (amended): when `sourcePreference` names one specific provider,
that provider is attempted first and on success the call returns
immediately tagged with its name; but on failure the call does not stop —
it falls through into the full auto chain (Futu if enabled, Yahoo with
retry, Stooq, AlphaVantage, then the local sample only if
`allowLocalFallback`), so a failed explicit-provider request can return
data from another provider rather than NoData. -/
theorem explicit_source_then_auto_chain (env : FetchEnv) (af fe : Bool)
    (nm : String)
    (h : nm = "futu" ∨ nm = "yahoo" ∨ nm = "stooq" ∨ nm = "alphavantage") :
    (providerOutcome env nm = .success →
      get_stock_history nm.toList af fe env = ⟨[.attempt nm], some nm⟩) ∧
    (providerOutcome env nm ≠ .success →
      get_stock_history nm.toList af fe env =
        ⟨.attempt nm ::
            (runAuto env af fe (if nm = "yahoo" then 1 else 0)).events,
          (runAuto env af fe (if nm = "yahoo" then 1 else 0)).result⟩) := by
  rcases h with rfl | rfl | rfl | rfl
  · constructor
    · intro hs
      have hs' : env.futu = .success := by simpa [providerOutcome] using hs
      rw [gsh_explicit_futu, hs']
    · intro hs
      have hs' : env.futu ≠ .success := by simpa [providerOutcome] using hs
      rw [gsh_explicit_futu]
      cases ho : env.futu
      · exact absurd ho hs'
      · rfl
      · rfl
  · constructor
    · intro hs
      have hs' : env.yahoo 0 = .success := by simpa [providerOutcome] using hs
      rw [gsh_explicit_yahoo, hs']
    · intro hs
      have hs' : env.yahoo 0 ≠ .success := by
        simpa [providerOutcome] using hs
      rw [gsh_explicit_yahoo]
      cases ho : env.yahoo 0
      · exact absurd ho hs'
      · rfl
      · rfl
  · constructor
    · intro hs
      have hs' : env.stooq = .success := by simpa [providerOutcome] using hs
      rw [gsh_explicit_stooq, hs']
    · intro hs
      have hs' : env.stooq ≠ .success := by simpa [providerOutcome] using hs
      rw [gsh_explicit_stooq]
      cases ho : env.stooq
      · exact absurd ho hs'
      · rfl
      · rfl
  · constructor
    · intro hs
      have hs' : env.alphavantage = .success := by
        simpa [providerOutcome] using hs
      rw [gsh_explicit_alphavantage, hs']
    · intro hs
      have hs' : env.alphavantage ≠ .success := by
        simpa [providerOutcome] using hs
      rw [gsh_explicit_alphavantage]
      cases ho : env.alphavantage
      · exact absurd ho hs'
      · rfl
      · rfl

theorem explicit_source_witness :
    get_stock_history "yahoo".toList false true envYahooOnly =
      ⟨[.attempt "yahoo"], some "yahoo"⟩ ∧
    get_stock_history "stooq".toList false true envYahooOnly =
      ⟨.attempt "stooq" ::
          (runAuto envYahooOnly false true
            (if "stooq" = "yahoo" then 1 else 0)).events,
        (runAuto envYahooOnly false true
          (if "stooq" = "yahoo" then 1 else 0)).result⟩ :=
  ⟨(explicit_source_then_auto_chain envYahooOnly false true "yahoo"
      (Or.inr (Or.inl rfl))).1 rfl,
   (explicit_source_then_auto_chain envYahooOnly false true "stooq"
      (Or.inr (Or.inr (Or.inl rfl)))).2 (by decide)⟩

/-- Shape of a `take` over the abort trace: the optional Futu attempt,
the rate-limited backoff blocks, the final aborted Yahoo attempt, and
then immediately the Stooq attempt. -/
theorem take_abort_shape (F R T : List FetchEvent) (a s : FetchEvent)
    (hT : T = [s] ∨ T = [s, FetchEvent.attempt "alphavantage"]) :
    (F ++ ((R ++ [a]) ++ T)).take (F.length + (R.length + 2)) =
      F ++ (R ++ [a, s]) := by
  rw [take_length_append]
  congr 1
  rw [List.append_assoc, take_length_append]
  congr 1
  rcases hT with rfl | rfl <;> rfl

/-- C8: per `get_stock_history` call the auto-chain Yahoo loop makes at
most 3 attempts; every sleep is `1.5 * (attempt index + 1)` seconds and
happens only after a rate-limited failure; and whenever attempt `k`
(reached after `k` rate-limited attempts, for any `k < 3`) fails with a
non-rate-limit error, the loop aborts at once — no further Yahoo attempt,
no sleep — and Stooq is attempted next instead of the error propagating. -/
theorem yahoo_retry_at_most_three_with_backoff (env : FetchEnv)
    (af fe : Bool) (off : Nat) :
    attemptCount "yahoo" (get_stock_history "auto".toList af fe env).events ≤ 3 ∧
    attemptCount "yahoo" (runAuto env af fe off).events ≤ 3 ∧
    (∀ q, FetchEvent.sleep q ∈ (runAuto env af fe off).events →
      ∃ j, j < 3 ∧ env.yahoo (off + j) = .error true ∧
        q = (3 : ℚ) / 2 * (j + 1)) ∧
    (∀ k, k < 3 →
      (∀ j, j < k → env.yahoo (off + j) = .error true) →
      env.yahoo (off + k) = .error false →
      (fe = false ∨ env.futu ≠ .success) →
      (runAuto env af fe off).events.take ((if fe then 1 else 0) + 2 * k + 2) =
        (if fe then [FetchEvent.attempt "futu"] else []) ++
          (rateLimitedBlocks 0 k ++
            [FetchEvent.attempt "yahoo", FetchEvent.attempt "stooq"])) := by
  refine ⟨runAuto_yahoo_count env af fe 0, runAuto_yahoo_count env af fe off,
    fun q hq => runAuto_sleep_mem env af fe off q hq, ?_⟩
  intro k hk hrl hhard hfutu
  have hc : ¬((fe && (env.futu == Outcome.success)) = true) := by
    rcases hfutu with h2 | h2
    · subst h2; simp
    · simp [beq_eq_false_iff_ne.mpr h2]
  have hloop : yahooLoop env off 0 3 =
      (rateLimitedBlocks 0 k ++ [.attempt "yahoo"], none) := by
    apply yahooLoop_rl_then_hard env off k 3 0 hk
    · intro j hj
      rw [show off + (0 + j) = off + j from by omega]
      exact hrl j hj
    · rw [show off + (0 + k) = off + k from by omega]
      exact hhard
  rw [runAuto_events, hloop, if_neg hc,
    if_pos (rfl : ((rateLimitedBlocks 0 k ++ [FetchEvent.attempt "yahoo"],
      none) : List FetchEvent × Option String).2 = none),
    List.append_assoc]
  show ((if fe then [FetchEvent.attempt "futu"] else []) ++
      ((rateLimitedBlocks 0 k ++ [FetchEvent.attempt "yahoo"]) ++
        (if env.stooq == Outcome.success then [FetchEvent.attempt "stooq"]
         else [FetchEvent.attempt "stooq",
               FetchEvent.attempt "alphavantage"]))).take
      ((if fe then 1 else 0) + 2 * k + 2) =
    (if fe then [FetchEvent.attempt "futu"] else []) ++
      (rateLimitedBlocks 0 k ++
        [FetchEvent.attempt "yahoo", FetchEvent.attempt "stooq"])
  have hidx : (if fe then 1 else 0) + 2 * k + 2 =
      (if fe then [FetchEvent.attempt "futu"] else []).length +
        ((rateLimitedBlocks 0 k).length + 2) := by
    rw [rateLimitedBlocks_length]
    cases fe
    · simp
    · simp
      omega
  rw [hidx]
  apply take_abort_shape
  by_cases hst : (env.stooq == Outcome.success) = true
  · rw [if_pos hst]
    exact Or.inl rfl
  · rw [if_neg hst]
    exact Or.inr rfl

theorem yahoo_retry_witness :
    attemptCount "yahoo" (runAuto envRateLimitedOnce false false 0).events ≤ 3 ∧
    (∃ j, j < 3 ∧ envRateLimitedOnce.yahoo (0 + j) = .error true ∧
      (3 : ℚ) / 2 * ((0 : ℕ) + 1) = (3 : ℚ) / 2 * (j + 1)) ∧
    (runAuto envYahooHardFailure false false 0).events.take
        ((if false then 1 else 0) + 2 * 0 + 2) =
      (if false then [FetchEvent.attempt "futu"] else []) ++
        (rateLimitedBlocks 0 0 ++
          [FetchEvent.attempt "yahoo", FetchEvent.attempt "stooq"]) ∧
    (runAuto envRateLimitedThenHard false false 0).events.take
        ((if false then 1 else 0) + 2 * 1 + 2) =
      (if false then [FetchEvent.attempt "futu"] else []) ++
        (rateLimitedBlocks 0 1 ++
          [FetchEvent.attempt "yahoo", FetchEvent.attempt "stooq"]) :=
  ⟨(yahoo_retry_at_most_three_with_backoff envRateLimitedOnce false false 0).2.1,
   (yahoo_retry_at_most_three_with_backoff envRateLimitedOnce false false 0).2.2.1
     ((3 : ℚ) / 2 * ((0 : ℕ) + 1))
     (List.mem_cons_of_mem _ (List.mem_cons_self _ _)),
   (yahoo_retry_at_most_three_with_backoff envYahooHardFailure false false 0).2.2.2
     0 (by decide) (fun j hj => absurd hj (by omega)) rfl (Or.inl rfl),
   (yahoo_retry_at_most_three_with_backoff envRateLimitedThenHard false false
      0).2.2.2 1 (by decide)
     (fun j hj => by
       have hj0 : j = 0 := by omega
       subst hj0
       rfl)
     rfl (Or.inl rfl)⟩

/-- C9: in auto mode with the broker-gateway probe reporting unavailable
(`futu_enabled = false`), the Futu provider is never attempted and the
first provider attempted is Yahoo. -/
theorem auto_probe_unavailable_skips_futu (env : FetchEnv) (af : Bool) :
    attemptCount "futu"
      (get_stock_history "auto".toList af false env).events = 0 ∧
    (get_stock_history "auto".toList af false env).events.head? =
      some (.attempt "yahoo") := by
  have hred : get_stock_history "auto".toList af false env =
      runAuto env af false 0 := rfl
  rw [hred]
  constructor
  · rw [runAuto_events, if_neg (by simp)]
    rw [attemptCount_append, attemptCount_append]
    have h1 : attemptCount "futu"
        (if (false : Bool) then [FetchEvent.attempt "futu"] else []) = 0 := rfl
    have h2 := yahooLoop_futu_count env 0 3 0
    have h3 : attemptCount "futu"
        (if (yahooLoop env 0 0 3).2 = none then
          (if env.stooq == .success then [FetchEvent.attempt "stooq"]
           else [FetchEvent.attempt "stooq",
                 FetchEvent.attempt "alphavantage"])
         else ([] : List FetchEvent)) = 0 := by
      split_ifs <;> rfl
    omega
  · rw [runAuto_events, if_neg (by simp)]
    obtain ⟨rest, hr⟩ := yahooLoop_head env 0 0 2
    rw [hr]
    simp

theorem buy_zero_quantity_witness :
    (buy sampleState "MSFT" 0 9).1 = .zeroDiv ∧
    lookupPos (buy sampleState "MSFT" 0 9).2.account.positions "MSFT" =
      some ⟨0, 0⟩ ∧
    (buy sampleState "MSFT" 0 9).2.saves = sampleState.saves ∧
    (buy sampleState "MSFT" 0 9).2.account.history =
      sampleState.account.history :=
  buy_zero_quantity_fresh_raises_zero_div sampleState "MSFT" 9 (by decide)
    (by norm_num [sampleState])

/-! ### Character and string lemmas for ticker normalization -/

theorem toNat_ofNat_valid (n : Nat) (h : n < 55296) :
    (Char.ofNat n).toNat = n := by
  have hv : n.isValidChar := Or.inl h
  rw [Char.ofNat, dif_pos hv]
  simp [Char.ofNatAux, Char.toNat, UInt32.toNat, BitVec.toNat_ofNatLt]

theorem isAsciiLowerCh_iff (c : Char) :
    isAsciiLowerCh c = true ↔ 97 ≤ c.toNat ∧ c.toNat ≤ 122 := by
  simp [isAsciiLowerCh]

theorem isAsciiLowerCh_false_of (c : Char)
    (h : c.toNat < 97 ∨ 122 < c.toNat) : isAsciiLowerCh c = false := by
  simp only [isAsciiLowerCh, Bool.and_eq_false_iff, decide_eq_false_iff_not]
  omega

theorem pyIsSpace_false_of (c : Char)
    (h : 13 < c.toNat ∧ c.toNat ≠ 32) : pyIsSpace c = false := by
  simp only [pyIsSpace, Bool.or_eq_false_iff, Bool.and_eq_false_iff,
    decide_eq_false_iff_not, beq_eq_false_iff_ne, ne_eq]
  omega

theorem upperChar_of_not_lower (c : Char) (h : isAsciiLowerCh c = false) :
    upperChar c = c := by
  simp [upperChar, h]

theorem toNat_upperChar_of_lower (c : Char) (h : isAsciiLowerCh c = true) :
    (upperChar c).toNat = c.toNat - 32 := by
  have hb : 97 ≤ c.toNat ∧ c.toNat ≤ 122 := (isAsciiLowerCh_iff c).mp h
  rw [upperChar, if_pos h]
  exact toNat_ofNat_valid _ (by omega)

theorem upperChar_idem (c : Char) : upperChar (upperChar c) = upperChar c := by
  by_cases h : isAsciiLowerCh c = true
  · have ht := toNat_upperChar_of_lower c h
    have hb : 97 ≤ c.toNat ∧ c.toNat ≤ 122 := (isAsciiLowerCh_iff c).mp h
    apply upperChar_of_not_lower
    apply isAsciiLowerCh_false_of
    omega
  · rw [upperChar_of_not_lower c (by simpa using h),
      upperChar_of_not_lower c (by simpa using h)]

theorem pyIsSpace_upperChar (c : Char) (h : pyIsSpace c = false) :
    pyIsSpace (upperChar c) = false := by
  by_cases hl : isAsciiLowerCh c = true
  · have ht := toNat_upperChar_of_lower c hl
    have hb : 97 ≤ c.toNat ∧ c.toNat ≤ 122 := (isAsciiLowerCh_iff c).mp hl
    apply pyIsSpace_false_of
    omega
  · rwa [upperChar_of_not_lower c (by simpa using hl)]

theorem dropWhile_eq_self_of_forall {p : Char → Bool} (l : List Char)
    (h : ∀ c ∈ l, p c = false) : l.dropWhile p = l := by
  cases l with
  | nil => rfl
  | cons a t => simp [List.dropWhile, h a (List.mem_cons_self a t)]

theorem pyStrip_eq_self (l : List Char) (h : ∀ c ∈ l, pyIsSpace c = false) :
    pyStrip l = l := by
  have h1 : pyLStripWs l = l := dropWhile_eq_self_of_forall l h
  have h2 : pyRStripWs l = l := by
    have := dropWhile_eq_self_of_forall l.reverse
      (fun c hc => h c (List.mem_reverse.mp hc))
    simp [pyRStripWs, this]
  simp [pyStrip, h1, h2]

theorem pyUpper_eq_self (l : List Char) (h : ∀ c ∈ l, upperChar c = c) :
    pyUpper l = l := by
  induction l with
  | nil => rfl
  | cons a t ih =>
    simp only [pyUpper, List.map_cons, h a (List.mem_cons_self a t)]
    have := ih (fun c hc => h c (List.mem_cons_of_mem a hc))
    simpa [pyUpper] using this

theorem mem_of_isPrefixOf {p l : List Char} (h : p.isPrefixOf l = true) :
    ∀ x ∈ p, x ∈ l := by
  induction p generalizing l with
  | nil => intro x hx; simp at hx
  | cons a as ih =>
    cases l with
    | nil => simp [List.isPrefixOf] at h
    | cons b bs =>
      simp only [List.isPrefixOf, Bool.and_eq_true, beq_iff_eq] at h
      intro x hx
      rcases List.mem_cons.mp hx with rfl | hx
      · exact h.1 ▸ List.mem_cons_self _ _
      · exact List.mem_cons_of_mem _ (ih h.2 x hx)

theorem mem_of_isSuffixOf {p l : List Char} (h : p.isSuffixOf l = true) :
    ∀ x ∈ p, x ∈ l := by
  intro x hx
  unfold List.isSuffixOf at h
  have := mem_of_isPrefixOf h x (List.mem_reverse.mpr hx)
  exact List.mem_reverse.mp this

theorem isPrefixOf_cons_ne (a c : Char) (as cs : List Char)
    (h : (a == c) = false) : (a :: as).isPrefixOf (c :: cs) = false := by
  simp [List.isPrefixOf, h]

theorem isPrefixOf_self_append (p t : List Char) :
    p.isPrefixOf (p ++ t) = true := by
  induction p with
  | nil => simp [List.isPrefixOf]
  | cons a as ih => simp [List.isPrefixOf, ih]

theorem isPrefixOf_eq_false_of_not_mem {p l : List Char} (x : Char)
    (hxp : x ∈ p) (hxl : x ∉ l) : p.isPrefixOf l = false := by
  cases hp : p.isPrefixOf l with
  | false => rfl
  | true => exact absurd (mem_of_isPrefixOf hp x hxp) hxl

theorem isSuffixOf_eq_false_of_not_mem {p l : List Char} (x : Char)
    (hxp : x ∈ p) (hxl : x ∉ l) : p.isSuffixOf l = false := by
  cases hp : p.isSuffixOf l with
  | false => rfl
  | true => exact absurd (mem_of_isSuffixOf hp x hxp) hxl

theorem pyReplaceFuel_no_dot (a b : Char) (rep : List Char) :
    ∀ fuel s, s.length ≤ fuel → '.' ∉ s →
      pyReplaceFuel [a, b, '.'] rep fuel s = s := by
  intro fuel
  induction fuel with
  | zero =>
    intro s hlen hdot
    cases s with
    | nil => rfl
    | cons c t => simp at hlen
  | succ n ih =>
    intro s hlen hdot
    cases s with
    | nil => rfl
    | cons c t =>
      have hpfx : ([a, b, '.'] : List Char).isPrefixOf (c :: t) = false := by
        apply isPrefixOf_eq_false_of_not_mem '.'
        · simp
        · exact hdot
      show (if ([a, b, '.'] : List Char).isPrefixOf (c :: t) = true then
          rep ++ pyReplaceFuel [a, b, '.'] rep n
            (t.drop (([a, b, '.'] : List Char).length - 1))
        else c :: pyReplaceFuel [a, b, '.'] rep n t) = c :: t
      rw [hpfx]
      simp only [Bool.false_eq_true, ite_false]
      have ht : '.' ∉ t := fun hm => hdot (List.mem_cons_of_mem c hm)
      rw [ih t (by simpa using hlen) ht]

/-- Stripping a broker-style `XY.` pattern from `XY. ++ s` when `s`
contains no dot removes exactly the leading occurrence. -/
theorem pyReplace_strip_pfx (a b : Char) (s : List Char) (hdot : '.' ∉ s) :
    pyReplace [a, b, '.'] [] ([a, b, '.'] ++ s) = s := by
  show pyReplaceFuel [a, b, '.'] [] ([a, b, '.'] ++ s).length
    ([a, b, '.'] ++ s) = s
  have hl : ([a, b, '.'] ++ s).length = s.length + 3 := by simp
  rw [hl]
  have hpfx' : ([a, b, '.'] : List Char).isPrefixOf (a :: b :: '.' :: s) =
      true := isPrefixOf_self_append [a, b, '.'] s
  show (if ([a, b, '.'] : List Char).isPrefixOf (a :: b :: '.' :: s) = true
      then [] ++ pyReplaceFuel [a, b, '.'] [] (s.length + 2)
        ((b :: '.' :: s).drop (([a, b, '.'] : List Char).length - 1))
      else a :: pyReplaceFuel [a, b, '.'] [] (s.length + 2) (b :: '.' :: s)) = s
  rw [hpfx']
  simp only [ite_true, List.nil_append]
  have hdrop : (b :: '.' :: s).drop (([a, b, '.'] : List Char).length - 1) =
      s := rfl
  rw [hdrop]
  exact pyReplaceFuel_no_dot a b [] _ s (by omega) hdot

theorem pyReplaceFuel_keep_until_dot (x y : Char) :
    ∀ fuel code, code.length + 3 ≤ fuel → '.' ∉ code →
      pyReplaceFuel ['.', x, y] [] fuel (code ++ ['.', x, y]) = code := by
  intro fuel
  induction fuel with
  | zero => intro code hlen _; omega
  | succ n ih =>
    intro code hlen hdot
    cases code with
    | nil =>
      have hpfx : (['.', x, y] : List Char).isPrefixOf ['.', x, y] = true := by
        have h := isPrefixOf_self_append ['.', x, y] []
        rwa [List.append_nil] at h
      show (if (['.', x, y] : List Char).isPrefixOf ['.', x, y] = true then
          [] ++ pyReplaceFuel ['.', x, y] [] n
            (([x, y] : List Char).drop ((['.', x, y] : List Char).length - 1))
        else '.' :: pyReplaceFuel ['.', x, y] [] n [x, y]) = []
      rw [hpfx]
      simp only [ite_true, List.nil_append]
      have hdrop : ([x, y] : List Char).drop
          ((['.', x, y] : List Char).length - 1) = [] := rfl
      rw [hdrop]
      cases n <;> rfl
    | cons c t =>
      have hc : c ≠ '.' := fun hc => hdot (hc ▸ List.mem_cons_self c t)
      have hpfx : (['.', x, y] : List Char).isPrefixOf
          (c :: (t ++ ['.', x, y])) = false :=
        isPrefixOf_cons_ne '.' c [x, y] (t ++ ['.', x, y])
          (beq_eq_false_iff_ne.mpr (fun h => hc h.symm))
      rw [List.cons_append]
      show (if (['.', x, y] : List Char).isPrefixOf (c :: (t ++ ['.', x, y]))
          = true then
          [] ++ pyReplaceFuel ['.', x, y] [] n
            ((t ++ ['.', x, y]).drop ((['.', x, y] : List Char).length - 1))
        else c :: pyReplaceFuel ['.', x, y] [] n (t ++ ['.', x, y])) = c :: t
      rw [hpfx]
      simp only [Bool.false_eq_true, ite_false]
      have ht : '.' ∉ t := fun hm => hdot (List.mem_cons_of_mem c hm)
      rw [ih t (by simp at hlen ⊢; omega) ht]

/-- Removing every `.XY` occurrence from `code ++ .XY` when `code` has no
dot yields `code`. -/
theorem pyReplace_strip_suffix (x y : Char) (code : List Char)
    (hdot : '.' ∉ code) :
    pyReplace ['.', x, y] [] (code ++ ['.', x, y]) = code := by
  show pyReplaceFuel ['.', x, y] [] (code ++ ['.', x, y]).length
    (code ++ ['.', x, y]) = code
  exact pyReplaceFuel_keep_until_dot x y _ code (by simp) hdot

theorem takeWhile_append_of_no_dot (d r : List Char) (hdot : '.' ∉ d) :
    (d ++ '.' :: r).takeWhile (fun c => !(c == '.')) = d := by
  induction d with
  | nil => simp [List.takeWhile]
  | cons c t ih =>
    have hc : c ≠ '.' := fun hc => hdot (hc ▸ List.mem_cons_self c t)
    have ht : '.' ∉ t := fun hm => hdot (List.mem_cons_of_mem c hm)
    rw [List.cons_append]
    rw [List.takeWhile_cons_of_pos, ih ht]
    simp [beq_eq_false_iff_ne.mpr hc]

theorem mem_pyReplaceFuel (pat : List Char) :
    ∀ fuel s e, e ∈ pyReplaceFuel pat [] fuel s → e ∈ s := by
  intro fuel
  induction fuel with
  | zero =>
    intro s e he
    cases s with
    | nil => exact he
    | cons c t => exact he
  | succ n ih =>
    intro s e he
    cases s with
    | nil => exact he
    | cons c t =>
      have hunf : pyReplaceFuel pat [] (n + 1) (c :: t) =
          (if pat.isPrefixOf (c :: t) = true then
            [] ++ pyReplaceFuel pat [] n (t.drop (pat.length - 1))
          else c :: pyReplaceFuel pat [] n t) := rfl
      rw [hunf] at he
      by_cases hp : pat.isPrefixOf (c :: t) = true
      · rw [if_pos hp, List.nil_append] at he
        exact List.mem_cons_of_mem c (List.mem_of_mem_drop (ih _ e he))
      · rw [if_neg hp] at he
        rcases List.mem_cons.mp he with rfl | he
        · exact List.mem_cons_self _ _
        · exact List.mem_cons_of_mem c (ih t e he)

theorem mem_pyReplace (pat s : List Char) (e : Char)
    (he : e ∈ pyReplace pat [] s) : e ∈ s :=
  mem_pyReplaceFuel pat s.length s e he

theorem isDigitCh_bounds (c : Char) (h : isDigitCh c = true) :
    48 ≤ c.toNat ∧ c.toNat ≤ 57 := by
  simpa [isDigitCh] using h

theorem isUpperAlnumCh_bounds (c : Char) (h : isUpperAlnumCh c = true) :
    (65 ≤ c.toNat ∧ c.toNat ≤ 90) ∨ (48 ≤ c.toNat ∧ c.toNat ≤ 57) := by
  simpa [isUpperAlnumCh, isAsciiUpperCh, isDigitCh] using h

theorem stable_of_digit (c : Char) (h : isDigitCh c = true) :
    upperChar c = c ∧ pyIsSpace c = false := by
  have hb := isDigitCh_bounds c h
  exact ⟨upperChar_of_not_lower c (isAsciiLowerCh_false_of c (by omega)),
    pyIsSpace_false_of c (by omega)⟩

theorem stable_of_alnum (c : Char) (h : isUpperAlnumCh c = true) :
    upperChar c = c ∧ pyIsSpace c = false := by
  have hb := isUpperAlnumCh_bounds c h
  exact ⟨upperChar_of_not_lower c (isAsciiLowerCh_false_of c (by omega)),
    pyIsSpace_false_of c (by omega)⟩

theorem not_dot_of_digits (d : List Char)
    (h : ∀ ch ∈ d, isDigitCh ch = true) : '.' ∉ d := by
  intro hm
  have := h '.' hm
  exact absurd this (by decide)

theorem not_dot_of_alnum (s : List Char)
    (h : ∀ ch ∈ s, isUpperAlnumCh ch = true) : '.' ∉ s := by
  intro hm
  have := h '.' hm
  exact absurd this (by decide)

theorem strip_upper_eq_self (l : List Char)
    (h : ∀ c ∈ l, upperChar c = c ∧ pyIsSpace c = false) :
    pyUpper (pyStrip l) = l := by
  rw [pyStrip_eq_self l (fun c hc => (h c hc).2),
    pyUpper_eq_self l (fun c hc => (h c hc).1)]

theorem mem_pyStrip (l : List Char) (c : Char) (h : c ∈ pyStrip l) :
    c ∈ l := by
  simp only [pyStrip, pyRStripWs, pyLStripWs] at h
  have h1 := List.mem_reverse.mp h
  have h2 := (List.dropWhile_sublist (l := (l.dropWhile pyIsSpace).reverse)
    (p := pyIsSpace)).subset h1
  have h3 := List.mem_reverse.mp h2
  exact (List.dropWhile_sublist (l := l) (p := pyIsSpace)).subset h3

/-- Restoring a 5-digit zero-padded code: `zfill(5)` undoes
`lstrip("0")` (with the all-zero code resolving to `"0"` first). -/
theorem pyZfill_restore (d : List Char) (hlen : d.length = 5)
    (hdig : ∀ ch ∈ d, isDigitCh ch = true) :
    pyZfill 5 (if d.dropWhile (fun c => c == '0') = [] then ['0']
               else d.dropWhile (fun c => c == '0')) = d := by
  have hsplit := List.takeWhile_append_dropWhile
    (p := fun c => c == '0') (l := d)
  have htz : ∀ ch ∈ d.takeWhile (fun c => c == '0'), ch = '0' := by
    intro ch hch
    have := List.mem_takeWhile_imp hch
    simpa using this
  have hrepl : d.takeWhile (fun c => c == '0') =
      List.replicate (d.takeWhile (fun c => c == '0')).length '0' :=
    List.eq_replicate_of_mem htz
  have hlensum : (d.takeWhile (fun c => c == '0')).length +
      (d.dropWhile (fun c => c == '0')).length = 5 := by
    have h := congrArg List.length hsplit
    rw [List.length_append] at h
    omega
  by_cases hc0 : d.dropWhile (fun c => c == '0') = []
  · rw [if_pos hc0]
    have ht5 : (d.takeWhile (fun c => c == '0')).length = 5 := by
      rw [hc0] at hlensum
      simpa using hlensum
    have hd : d = List.replicate 5 '0' := by
      rw [hc0, List.append_nil] at hsplit
      rw [← hsplit, hrepl, ht5]
    rw [hd]
    decide
  · rw [if_neg hc0]
    obtain ⟨ch, rest, hcr⟩ : ∃ ch rest,
        d.dropWhile (fun c => c == '0') = ch :: rest := by
      cases hdw : d.dropWhile (fun c => c == '0') with
      | nil => exact absurd hdw hc0
      | cons a b => exact ⟨a, b, rfl⟩
    have hchd : ch ∈ d :=
      (List.dropWhile_sublist (l := d) (p := fun c => c == '0')).subset
        (hcr ▸ List.mem_cons_self ch rest)
    have hchdig : isDigitCh ch = true := hdig ch hchd
    have hnotsign : ¬(ch = '+' ∨ ch = '-') := by
      rintro (rfl | rfl) <;> exact absurd hchdig (by decide)
    rw [hcr]
    have hunf : pyZfill 5 (ch :: rest) =
        if 5 ≤ (ch :: rest).length then ch :: rest
        else if ch = '+' ∨ ch = '-' then
          ch :: (List.replicate (5 - (ch :: rest).length) '0' ++ rest)
        else List.replicate (5 - (ch :: rest).length) '0' ++ (ch :: rest) :=
      rfl
    rw [hunf]
    by_cases hlong : 5 ≤ (ch :: rest).length
    · rw [if_pos hlong]
      rw [hcr] at hlensum
      have htnil : d.takeWhile (fun c => c == '0') = [] :=
        List.length_eq_zero.mp (by omega)
      rw [htnil, List.nil_append, hcr] at hsplit
      exact hsplit
    · rw [if_neg hlong, if_neg hnotsign]
      rw [hcr] at hlensum
      have h1 : 5 - (ch :: rest).length =
          (d.takeWhile (fun c => c == '0')).length := by omega
      rw [h1, ← hrepl, ← hcr, hsplit]

theorem isPrefixOf_cons_same (a : Char) (as cs : List Char) :
    (a :: as).isPrefixOf (a :: cs) = as.isPrefixOf cs := by
  simp [List.isPrefixOf]

theorem isSuffixOf_eq (p l : List Char) :
    p.isSuffixOf l = p.reverse.isPrefixOf l.reverse := rfl

theorem isSuffixOf_append_self (p l : List Char) :
    p.isSuffixOf (l ++ p) = true := by
  rw [isSuffixOf_eq, List.reverse_append]
  exact isPrefixOf_self_append _ _

/-- `normalize_ticker` on a broker-prefixed US form strips the prefix. -/
theorem normalize_us (s : List Char) (hcl : ∀ ch ∈ s, isUpperAlnumCh ch = true) :
    normalize_ticker ("US.".toList ++ s) = s := by
  have hus : ("US.".toList : List Char) = ['U', 'S', '.'] := rfl
  have hchars : ∀ c ∈ "US.".toList ++ s,
      upperChar c = c ∧ pyIsSpace c = false := by
    intro c hc
    rcases List.mem_append.mp hc with hc | hc
    · rw [hus] at hc
      have : c = 'U' ∨ c = 'S' ∨ c = '.' := by simpa using hc
      rcases this with rfl | rfl | rfl <;> exact ⟨by decide, by decide⟩
    · exact stable_of_alnum c (hcl c hc)
  have ht := strip_upper_eq_self _ hchars
  have h1 : ¬("US.".toList ++ s = []) := by rw [hus]; simp
  have h2 : ("US.".toList).isPrefixOf ("US.".toList ++ s) = true :=
    isPrefixOf_self_append _ _
  simp only [normalize_ticker, ht]
  rw [if_neg h1, if_pos h2, hus]
  exact pyReplace_strip_pfx 'U' 'S' s (not_dot_of_alnum s hcl)

/-- `normalize_ticker` on a broker-prefixed HK form: strip the prefix and
the leading zeros (resolving an all-zero code to `"0"`), then append
`.HK`. -/
theorem normalize_hk (d : List Char) (hdig : ∀ ch ∈ d, isDigitCh ch = true) :
    normalize_ticker ("HK.".toList ++ d) =
      (if d.dropWhile (fun c => c == '0') = [] then ['0']
       else d.dropWhile (fun c => c == '0')) ++ ".HK".toList := by
  have hhk : ("HK.".toList : List Char) = ['H', 'K', '.'] := rfl
  have hchars : ∀ c ∈ "HK.".toList ++ d,
      upperChar c = c ∧ pyIsSpace c = false := by
    intro c hc
    rcases List.mem_append.mp hc with hc | hc
    · rw [hhk] at hc
      have : c = 'H' ∨ c = 'K' ∨ c = '.' := by simpa using hc
      rcases this with rfl | rfl | rfl <;> exact ⟨by decide, by decide⟩
    · exact stable_of_digit c (hdig c hc)
  have ht := strip_upper_eq_self _ hchars
  have h1 : ¬("HK.".toList ++ d = []) := by rw [hhk]; simp
  have hus : ("US.".toList).isPrefixOf ("HK.".toList ++ d) = false := by
    rw [hhk, (rfl : ("US.".toList : List Char) = ['U', 'S', '.']),
      List.cons_append]
    exact isPrefixOf_cons_ne 'U' 'H' _ _ rfl
  have hhkp : ("HK.".toList).isPrefixOf ("HK.".toList ++ d) = true :=
    isPrefixOf_self_append _ _
  simp only [normalize_ticker, ht]
  rw [if_neg h1, if_neg (by rw [hus]; exact Bool.false_ne_true),
    if_pos hhkp, hhk]
  rw [pyReplace_strip_pfx 'H' 'K' d (not_dot_of_digits d hdig)]
  rfl

/-- `normalize_ticker` on a broker-prefixed SH form. -/
theorem normalize_sh (d : List Char) (hdig : ∀ ch ∈ d, isDigitCh ch = true) :
    normalize_ticker ("SH.".toList ++ d) = d ++ ".SS".toList := by
  have hsh : ("SH.".toList : List Char) = ['S', 'H', '.'] := rfl
  have hchars : ∀ c ∈ "SH.".toList ++ d,
      upperChar c = c ∧ pyIsSpace c = false := by
    intro c hc
    rcases List.mem_append.mp hc with hc | hc
    · rw [hsh] at hc
      have : c = 'S' ∨ c = 'H' ∨ c = '.' := by simpa using hc
      rcases this with rfl | rfl | rfl <;> exact ⟨by decide, by decide⟩
    · exact stable_of_digit c (hdig c hc)
  have ht := strip_upper_eq_self _ hchars
  have h1 : ¬("SH.".toList ++ d = []) := by rw [hsh]; simp
  have hus : ("US.".toList).isPrefixOf ("SH.".toList ++ d) = false := by
    rw [hsh, (rfl : ("US.".toList : List Char) = ['U', 'S', '.']),
      List.cons_append]
    exact isPrefixOf_cons_ne 'U' 'S' _ _ rfl
  have hhk : ("HK.".toList).isPrefixOf ("SH.".toList ++ d) = false := by
    rw [hsh, (rfl : ("HK.".toList : List Char) = ['H', 'K', '.']),
      List.cons_append]
    exact isPrefixOf_cons_ne 'H' 'S' _ _ rfl
  have hshp : ("SH.".toList).isPrefixOf ("SH.".toList ++ d) = true :=
    isPrefixOf_self_append _ _
  simp only [normalize_ticker, ht]
  rw [if_neg h1, if_neg (by rw [hus]; exact Bool.false_ne_true),
    if_neg (by rw [hhk]; exact Bool.false_ne_true), if_pos hshp, hsh]
  rw [pyReplace_strip_pfx 'S' 'H' d (not_dot_of_digits d hdig)]

/-- `normalize_ticker` on a broker-prefixed SZ form. -/
theorem normalize_sz (d : List Char) (hdig : ∀ ch ∈ d, isDigitCh ch = true) :
    normalize_ticker ("SZ.".toList ++ d) = d ++ ".SZ".toList := by
  have hsz : ("SZ.".toList : List Char) = ['S', 'Z', '.'] := rfl
  have hchars : ∀ c ∈ "SZ.".toList ++ d,
      upperChar c = c ∧ pyIsSpace c = false := by
    intro c hc
    rcases List.mem_append.mp hc with hc | hc
    · rw [hsz] at hc
      have : c = 'S' ∨ c = 'Z' ∨ c = '.' := by simpa using hc
      rcases this with rfl | rfl | rfl <;> exact ⟨by decide, by decide⟩
    · exact stable_of_digit c (hdig c hc)
  have ht := strip_upper_eq_self _ hchars
  have h1 : ¬("SZ.".toList ++ d = []) := by rw [hsz]; simp
  have hus : ("US.".toList).isPrefixOf ("SZ.".toList ++ d) = false := by
    rw [hsz, (rfl : ("US.".toList : List Char) = ['U', 'S', '.']),
      List.cons_append]
    exact isPrefixOf_cons_ne 'U' 'S' _ _ rfl
  have hhk : ("HK.".toList).isPrefixOf ("SZ.".toList ++ d) = false := by
    rw [hsz, (rfl : ("HK.".toList : List Char) = ['H', 'K', '.']),
      List.cons_append]
    exact isPrefixOf_cons_ne 'H' 'S' _ _ rfl
  have hsh : ("SH.".toList).isPrefixOf ("SZ.".toList ++ d) = false := by
    show (['S', 'H', '.'] : List Char).isPrefixOf ('S' :: 'Z' :: '.' :: d) =
      false
    rw [isPrefixOf_cons_same]
    exact isPrefixOf_cons_ne 'H' 'Z' _ _ rfl
  have hszp : ("SZ.".toList).isPrefixOf ("SZ.".toList ++ d) = true :=
    isPrefixOf_self_append _ _
  simp only [normalize_ticker, ht]
  rw [if_neg h1, if_neg (by rw [hus]; exact Bool.false_ne_true),
    if_neg (by rw [hhk]; exact Bool.false_ne_true),
    if_neg (by rw [hsh]; exact Bool.false_ne_true), if_pos hszp, hsz]
  rw [pyReplace_strip_pfx 'S' 'Z' d (not_dot_of_digits d hdig)]

theorem ne_of_digit (a c : Char) (ha : isDigitCh a = false)
    (hc : isDigitCh c = true) : (a == c) = false := by
  apply beq_eq_false_iff_ne.mpr
  intro h
  rw [h, hc] at ha
  exact absurd ha (by decide)

/-- `to_futu_code` on a plain uppercase alphanumeric symbol defaults to
the US market. -/
theorem to_futu_us (s : List Char) (hne : s ≠ [])
    (hcl : ∀ ch ∈ s, isUpperAlnumCh ch = true) :
    to_futu_code s = "US.".toList ++ s := by
  have hdot : '.' ∉ s := not_dot_of_alnum s hcl
  have ht := strip_upper_eq_self s (fun c hc => stable_of_alnum c (hcl c hc))
  have hp1 : ("US.".toList).isPrefixOf s = false :=
    isPrefixOf_eq_false_of_not_mem '.' (by decide) hdot
  have hp2 : ("HK.".toList).isPrefixOf s = false :=
    isPrefixOf_eq_false_of_not_mem '.' (by decide) hdot
  have hp3 : ("SH.".toList).isPrefixOf s = false :=
    isPrefixOf_eq_false_of_not_mem '.' (by decide) hdot
  have hp4 : ("SZ.".toList).isPrefixOf s = false :=
    isPrefixOf_eq_false_of_not_mem '.' (by decide) hdot
  have hs1 : (".HK".toList).isSuffixOf s = false :=
    isSuffixOf_eq_false_of_not_mem '.' (by decide) hdot
  have hs2 : (".SS".toList).isSuffixOf s = false :=
    isSuffixOf_eq_false_of_not_mem '.' (by decide) hdot
  have hs3 : (".SH".toList).isSuffixOf s = false :=
    isSuffixOf_eq_false_of_not_mem '.' (by decide) hdot
  have hs4 : (".SZ".toList).isSuffixOf s = false :=
    isSuffixOf_eq_false_of_not_mem '.' (by decide) hdot
  simp only [to_futu_code, ht]
  rw [if_neg hne, if_neg (by rw [hp1, hp2, hp3, hp4]; decide),
    if_neg (by rw [hs1]; decide), if_neg (by rw [hs2, hs3]; decide),
    if_neg (by rw [hs4]; decide)]

/-- `to_futu_code` on a numeric code followed by `.HK` pads the code with
`zfill(5)`. -/
theorem to_futu_hk_general (code : List Char) (hne : code ≠ [])
    (hdig : ∀ ch ∈ code, isDigitCh ch = true) :
    to_futu_code (code ++ ".HK".toList) =
      "HK.".toList ++ pyZfill 5 code := by
  obtain ⟨c0, t, rfl⟩ : ∃ a t, code = a :: t := by
    cases code with
    | nil => exact absurd rfl hne
    | cons a t => exact ⟨a, t, rfl⟩
  have hc0 : isDigitCh c0 = true := hdig c0 (List.mem_cons_self c0 t)
  have hdot : '.' ∉ c0 :: t := not_dot_of_digits _ hdig
  have hchars : ∀ c ∈ (c0 :: t) ++ ".HK".toList,
      upperChar c = c ∧ pyIsSpace c = false := by
    intro c hc
    rcases List.mem_append.mp hc with hc | hc
    · exact stable_of_digit c (hdig c hc)
    · have : c = '.' ∨ c = 'H' ∨ c = 'K' := by simpa using hc
      rcases this with rfl | rfl | rfl <;> exact ⟨by decide, by decide⟩
  have ht := strip_upper_eq_self _ hchars
  have h1 : ¬((c0 :: t) ++ ".HK".toList = []) := by simp
  have hp1 : ("US.".toList).isPrefixOf ((c0 :: t) ++ ".HK".toList) = false := by
    rw [List.cons_append]
    exact isPrefixOf_cons_ne 'U' c0 _ _ (ne_of_digit 'U' c0 (by decide) hc0)
  have hp2 : ("HK.".toList).isPrefixOf ((c0 :: t) ++ ".HK".toList) = false := by
    rw [List.cons_append]
    exact isPrefixOf_cons_ne 'H' c0 _ _ (ne_of_digit 'H' c0 (by decide) hc0)
  have hp3 : ("SH.".toList).isPrefixOf ((c0 :: t) ++ ".HK".toList) = false := by
    rw [List.cons_append]
    exact isPrefixOf_cons_ne 'S' c0 _ _ (ne_of_digit 'S' c0 (by decide) hc0)
  have hp4 : ("SZ.".toList).isPrefixOf ((c0 :: t) ++ ".HK".toList) = false := by
    rw [List.cons_append]
    exact isPrefixOf_cons_ne 'S' c0 _ _ (ne_of_digit 'S' c0 (by decide) hc0)
  have hsfx : (".HK".toList).isSuffixOf ((c0 :: t) ++ ".HK".toList) = true :=
    isSuffixOf_append_self _ _
  have hrep : pyReplace ".HK".toList [] ((c0 :: t) ++ ".HK".toList) =
      c0 :: t := pyReplace_strip_suffix 'H' 'K' (c0 :: t) hdot
  simp only [to_futu_code, ht]
  rw [if_neg h1, if_neg (by rw [hp1, hp2, hp3, hp4]; decide), if_pos hsfx,
    hrep]

theorem to_futu_hk (d : List Char) (hlen : d.length = 5)
    (hdig : ∀ ch ∈ d, isDigitCh ch = true) :
    to_futu_code ((if d.dropWhile (fun c => c == '0') = [] then ['0']
                   else d.dropWhile (fun c => c == '0')) ++ ".HK".toList) =
      "HK.".toList ++ d := by
  have hcode_ne : (if d.dropWhile (fun c => c == '0') = [] then ['0']
      else d.dropWhile (fun c => c == '0')) ≠ [] := by
    split_ifs with h
    · simp
    · exact h
  have hcode_dig : ∀ ch ∈ (if d.dropWhile (fun c => c == '0') = [] then ['0']
      else d.dropWhile (fun c => c == '0')), isDigitCh ch = true := by
    split_ifs with h
    · intro ch hch
      have : ch = '0' := by simpa using hch
      rw [this]
      decide
    · intro ch hch
      exact hdig ch
        ((List.dropWhile_sublist (l := d) (p := fun c => c == '0')).subset hch)
  rw [to_futu_hk_general _ hcode_ne hcode_dig, pyZfill_restore d hlen hdig]

theorem to_futu_ss (d : List Char) (hne : d ≠ [])
    (hdig : ∀ ch ∈ d, isDigitCh ch = true) :
    to_futu_code (d ++ ".SS".toList) = "SH.".toList ++ d := by
  obtain ⟨c0, t, rfl⟩ : ∃ a t, d = a :: t := by
    cases d with
    | nil => exact absurd rfl hne
    | cons a t => exact ⟨a, t, rfl⟩
  have hc0 : isDigitCh c0 = true := hdig c0 (List.mem_cons_self c0 t)
  have hdot : '.' ∉ c0 :: t := not_dot_of_digits _ hdig
  have hchars : ∀ c ∈ (c0 :: t) ++ ".SS".toList,
      upperChar c = c ∧ pyIsSpace c = false := by
    intro c hc
    rcases List.mem_append.mp hc with hc | hc
    · exact stable_of_digit c (hdig c hc)
    · have : c = '.' ∨ c = 'S' ∨ c = 'S' := by simpa using hc
      rcases this with rfl | rfl | rfl <;> exact ⟨by decide, by decide⟩
  have ht := strip_upper_eq_self _ hchars
  have h1 : ¬((c0 :: t) ++ ".SS".toList = []) := by simp
  have hp1 : ("US.".toList).isPrefixOf ((c0 :: t) ++ ".SS".toList) = false := by
    rw [List.cons_append]
    exact isPrefixOf_cons_ne 'U' c0 _ _ (ne_of_digit 'U' c0 (by decide) hc0)
  have hp2 : ("HK.".toList).isPrefixOf ((c0 :: t) ++ ".SS".toList) = false := by
    rw [List.cons_append]
    exact isPrefixOf_cons_ne 'H' c0 _ _ (ne_of_digit 'H' c0 (by decide) hc0)
  have hp3 : ("SH.".toList).isPrefixOf ((c0 :: t) ++ ".SS".toList) = false := by
    rw [List.cons_append]
    exact isPrefixOf_cons_ne 'S' c0 _ _ (ne_of_digit 'S' c0 (by decide) hc0)
  have hp4 : ("SZ.".toList).isPrefixOf ((c0 :: t) ++ ".SS".toList) = false := by
    rw [List.cons_append]
    exact isPrefixOf_cons_ne 'S' c0 _ _ (ne_of_digit 'S' c0 (by decide) hc0)
  have hsHK : (".HK".toList).isSuffixOf ((c0 :: t) ++ ".SS".toList) = false := by
    rw [isSuffixOf_eq, List.reverse_append]
    show (['K', 'H', '.'] : List Char).isPrefixOf
      (['S', 'S', '.'] ++ (c0 :: t).reverse) = false
    rw [List.cons_append]
    exact isPrefixOf_cons_ne 'K' 'S' _ _ rfl
  have hsSS : (".SS".toList).isSuffixOf ((c0 :: t) ++ ".SS".toList) = true :=
    isSuffixOf_append_self _ _
  have hsplit : pySplitDotHead ((c0 :: t) ++ ".SS".toList) = c0 :: t :=
    takeWhile_append_of_no_dot (c0 :: t) ['S', 'S'] hdot
  simp only [to_futu_code, ht]
  rw [if_neg h1, if_neg (by rw [hp1, hp2, hp3, hp4]; decide),
    if_neg (by rw [hsHK]; decide), if_pos (by rw [hsSS]; rfl), hsplit]

theorem to_futu_sz (d : List Char) (hne : d ≠ [])
    (hdig : ∀ ch ∈ d, isDigitCh ch = true) :
    to_futu_code (d ++ ".SZ".toList) = "SZ.".toList ++ d := by
  obtain ⟨c0, t, rfl⟩ : ∃ a t, d = a :: t := by
    cases d with
    | nil => exact absurd rfl hne
    | cons a t => exact ⟨a, t, rfl⟩
  have hc0 : isDigitCh c0 = true := hdig c0 (List.mem_cons_self c0 t)
  have hdot : '.' ∉ c0 :: t := not_dot_of_digits _ hdig
  have hchars : ∀ c ∈ (c0 :: t) ++ ".SZ".toList,
      upperChar c = c ∧ pyIsSpace c = false := by
    intro c hc
    rcases List.mem_append.mp hc with hc | hc
    · exact stable_of_digit c (hdig c hc)
    · have : c = '.' ∨ c = 'S' ∨ c = 'Z' := by simpa using hc
      rcases this with rfl | rfl | rfl <;> exact ⟨by decide, by decide⟩
  have ht := strip_upper_eq_self _ hchars
  have h1 : ¬((c0 :: t) ++ ".SZ".toList = []) := by simp
  have hp1 : ("US.".toList).isPrefixOf ((c0 :: t) ++ ".SZ".toList) = false := by
    rw [List.cons_append]
    exact isPrefixOf_cons_ne 'U' c0 _ _ (ne_of_digit 'U' c0 (by decide) hc0)
  have hp2 : ("HK.".toList).isPrefixOf ((c0 :: t) ++ ".SZ".toList) = false := by
    rw [List.cons_append]
    exact isPrefixOf_cons_ne 'H' c0 _ _ (ne_of_digit 'H' c0 (by decide) hc0)
  have hp3 : ("SH.".toList).isPrefixOf ((c0 :: t) ++ ".SZ".toList) = false := by
    rw [List.cons_append]
    exact isPrefixOf_cons_ne 'S' c0 _ _ (ne_of_digit 'S' c0 (by decide) hc0)
  have hp4 : ("SZ.".toList).isPrefixOf ((c0 :: t) ++ ".SZ".toList) = false := by
    rw [List.cons_append]
    exact isPrefixOf_cons_ne 'S' c0 _ _ (ne_of_digit 'S' c0 (by decide) hc0)
  have hsHK : (".HK".toList).isSuffixOf ((c0 :: t) ++ ".SZ".toList) = false := by
    rw [isSuffixOf_eq, List.reverse_append]
    show (['K', 'H', '.'] : List Char).isPrefixOf
      (['Z', 'S', '.'] ++ (c0 :: t).reverse) = false
    rw [List.cons_append]
    exact isPrefixOf_cons_ne 'K' 'Z' _ _ rfl
  have hsSS : (".SS".toList).isSuffixOf ((c0 :: t) ++ ".SZ".toList) = false := by
    rw [isSuffixOf_eq, List.reverse_append]
    show (['S', 'S', '.'] : List Char).isPrefixOf
      (['Z', 'S', '.'] ++ (c0 :: t).reverse) = false
    rw [List.cons_append]
    exact isPrefixOf_cons_ne 'S' 'Z' _ _ rfl
  have hsSH : (".SH".toList).isSuffixOf ((c0 :: t) ++ ".SZ".toList) = false := by
    rw [isSuffixOf_eq, List.reverse_append]
    show (['H', 'S', '.'] : List Char).isPrefixOf
      (['Z', 'S', '.'] ++ (c0 :: t).reverse) = false
    rw [List.cons_append]
    exact isPrefixOf_cons_ne 'H' 'Z' _ _ rfl
  have hsSZ : (".SZ".toList).isSuffixOf ((c0 :: t) ++ ".SZ".toList) = true :=
    isSuffixOf_append_self _ _
  have hsplit : pySplitDotHead ((c0 :: t) ++ ".SZ".toList) = c0 :: t :=
    takeWhile_append_of_no_dot (c0 :: t) ['S', 'Z'] hdot
  simp only [to_futu_code, ht]
  rw [if_neg h1, if_neg (by rw [hp1, hp2, hp3, hp4]; decide),
    if_neg (by rw [hsHK]; decide), if_neg (by rw [hsSS, hsSH]; decide),
    if_pos hsSZ, hsplit]

/-! ## Claim theorems: ticker normalization -/

/-- C7: for every supported broker-prefixed form, converting to canonical
form and back round-trips, and the all-zero HK code resolves to the single
digit `"0"` (so `HK.00000` normalizes to `0.HK` and zero-pads back to
`HK.00000`). -/
theorem futu_code_roundtrip :
    (∀ c, SupportedFutuCode c → to_futu_code (normalize_ticker c) = c) ∧
    normalize_ticker "HK.00000".toList = "0.HK".toList ∧
    to_futu_code "0.HK".toList = "HK.00000".toList := by
  refine ⟨?_, by decide, by decide⟩
  intro c hc
  rcases hc with ⟨s, rfl, hne, hcl⟩ | ⟨d, rfl, hlen, hdig⟩ |
    ⟨d, rfl, hne, hdig⟩ | ⟨d, rfl, hne, hdig⟩
  · rw [normalize_us s hcl, to_futu_us s hne hcl]
  · rw [normalize_hk d hdig]
    exact to_futu_hk d hlen hdig
  · rw [normalize_sh d hdig]
    exact to_futu_ss d hne hdig
  · rw [normalize_sz d hdig]
    exact to_futu_sz d hne hdig

theorem futu_code_roundtrip_witness :
    to_futu_code (normalize_ticker "SH.600519".toList) =
      "SH.600519".toList ∧
    to_futu_code (normalize_ticker "HK.00700".toList) =
      "HK.00700".toList :=
  ⟨futu_code_roundtrip.1 "SH.600519".toList
     (Or.inr (Or.inr (Or.inl ⟨"600519".toList, rfl, by decide, by decide⟩))),
   futu_code_roundtrip.1 "HK.00700".toList
     (Or.inr (Or.inl ⟨"00700".toList, rfl, by decide, by decide⟩))⟩

/-- C6 counterexample: `normalize` is not idempotent on every input.
`normalize("US.HK.1") = "HK.1"` (the `US.` prefix is stripped), but
normalizing again gives `"1.HK"`. -/
theorem normalize_idempotent_counterexample :
    normalize_ticker (normalize_ticker "US.HK.1".toList) ≠
      normalize_ticker "US.HK.1".toList := by decide

/-- Every character of a `normalize_ticker` output (on whitespace-free
input) is fixed by upper-casing and is not whitespace. -/
theorem normalize_ticker_chars (x : List Char)
    (hws : ∀ c ∈ x, pyIsSpace c = false) :
    ∀ c ∈ normalize_ticker x, upperChar c = c ∧ pyIsSpace c = false := by
  have ht : ∀ c ∈ pyUpper (pyStrip x),
      upperChar c = c ∧ pyIsSpace c = false := by
    intro c hc
    obtain ⟨c', hc', rfl⟩ := List.mem_map.mp hc
    have hx' : c' ∈ x := mem_pyStrip x c' hc'
    exact ⟨upperChar_idem c', pyIsSpace_upperChar c' (hws c' hx')⟩
  intro c hc
  simp only [normalize_ticker] at hc
  by_cases h0 : pyUpper (pyStrip x) = []
  · rw [if_pos h0] at hc
    exact ht c hc
  · rw [if_neg h0] at hc
    by_cases h1 : ("US.".toList).isPrefixOf (pyUpper (pyStrip x)) = true
    · rw [if_pos h1] at hc
      exact ht c (mem_pyReplace _ _ c hc)
    · rw [if_neg h1] at hc
      by_cases h2 : ("HK.".toList).isPrefixOf (pyUpper (pyStrip x)) = true
      · rw [if_pos h2] at hc
        rcases List.mem_append.mp hc with hcm | hcm
        · by_cases h3 : pyLStripZeros
              (pyReplace "HK.".toList [] (pyUpper (pyStrip x))) = []
          · rw [if_pos h3] at hcm
            have : c = '0' := by simpa using hcm
            rw [this]
            exact ⟨by decide, by decide⟩
          · rw [if_neg h3] at hcm
            simp only [pyLStripZeros] at hcm
            have hcm' : c ∈ pyReplace "HK.".toList [] (pyUpper (pyStrip x)) :=
              (List.dropWhile_sublist
                (l := pyReplace "HK.".toList [] (pyUpper (pyStrip x)))
                (p := fun c => c == '0')).subset hcm
            exact ht c (mem_pyReplace _ _ c hcm')
        · have : c = '.' ∨ c = 'H' ∨ c = 'K' := by simpa using hcm
          rcases this with rfl | rfl | rfl <;> exact ⟨by decide, by decide⟩
      · rw [if_neg h2] at hc
        by_cases h3 : ("SH.".toList).isPrefixOf (pyUpper (pyStrip x)) = true
        · rw [if_pos h3] at hc
          rcases List.mem_append.mp hc with hcm | hcm
          · exact ht c (mem_pyReplace _ _ c hcm)
          · have : c = '.' ∨ c = 'S' ∨ c = 'S' := by simpa using hcm
            rcases this with rfl | rfl | rfl <;> exact ⟨by decide, by decide⟩
        · rw [if_neg h3] at hc
          by_cases h4 : ("SZ.".toList).isPrefixOf (pyUpper (pyStrip x)) = true
          · rw [if_pos h4] at hc
            rcases List.mem_append.mp hc with hcm | hcm
            · exact ht c (mem_pyReplace _ _ c hcm)
            · have : c = '.' ∨ c = 'S' ∨ c = 'Z' := by simpa using hcm
              rcases this with rfl | rfl | rfl <;> exact ⟨by decide, by decide⟩
          · rw [if_neg h4] at hc
            exact ht c hc

/-- C6 (amended): ticker normalization is idempotent on every
whitespace-free input whose normalized output does not itself begin with
one of the broker prefixes `US.`, `HK.`, `SH.`, `SZ.` (in particular on
all documented input formats); an output that again carries a broker
prefix is re-interpreted by a second pass, and interior whitespace can
surface at the ends of an output and be stripped by a second pass. -/
theorem normalize_idempotent_amended (x : List Char)
    (hws : ∀ c ∈ x, pyIsSpace c = false)
    (hp : ∀ p ∈ [("US.".toList : List Char), "HK.".toList, "SH.".toList,
        "SZ.".toList], p.isPrefixOf (normalize_ticker x) = false) :
    normalize_ticker (normalize_ticker x) = normalize_ticker x := by
  have hk := normalize_ticker_chars x hws
  have hself : pyUpper (pyStrip (normalize_ticker x)) = normalize_ticker x :=
    strip_upper_eq_self _ hk
  by_cases hy0 : normalize_ticker x = []
  · rw [hy0]
    decide
  · have hpU := hp "US.".toList (by simp)
    have hpH := hp "HK.".toList (by simp)
    have hpS := hp "SH.".toList (by simp)
    have hpZ := hp "SZ.".toList (by simp)
    set y := normalize_ticker x with hydef
    simp only [normalize_ticker]
    rw [hself, if_neg hy0,
      if_neg (by rw [hpU]; exact Bool.false_ne_true),
      if_neg (by rw [hpH]; exact Bool.false_ne_true),
      if_neg (by rw [hpS]; exact Bool.false_ne_true),
      if_neg (by rw [hpZ]; exact Bool.false_ne_true)]

theorem normalize_idempotent_witness :
    normalize_ticker (normalize_ticker "TSLA".toList) =
      normalize_ticker "TSLA".toList :=
  normalize_idempotent_amended "TSLA".toList (by decide) (by decide)

end BotInvest
